import Mathlib

/-!
Verification development for the fourcipp repository.

Part A embeds the spec-combinator normalisation of
`src/fourc_meta/input_specs.py` (`All_Of.condense`, `One_Of.condense`,
`One_Of._condense_specs`, `add_input_specs`, the constructors).
Part B embeds the legacy inline-dat codec of
`src/fourcipp/legacy_io/inline_dat.py` and part C the knot-vector block
reader of `src/fourcipp/legacy_io/knotvectors.py`.

Python recursion that is not structurally decreasing is rendered with an
explicit fuel parameter; running out of fuel is a distinguished error that
the real program never produces (theorems below quantify over, or
discharge, the fuel).
-/

namespace Fourcipp

/-! ### Part A: spec nodes and condensation (`fourc_meta/input_specs.py`)

`Node.input` stands for a plain `InputSpec` leaf; `condense` never inspects a
leaf beyond its identity, so the whole leaf payload (name, description,
required flag, ...) is abstracted into one identifier. `Node.allOf` holds the
`_specs` list of an `All_Of` object, `Node.oneOf` the `specs` list of a
`One_Of` object. -/

inductive Node where
  | input (id : Nat) : Node
  | allOf (specs : List Node) : Node
  | oneOf (specs : List Node) : Node

/-- Errors raised during condensation.  `moreThanOneOneOf` is the
`ValueError` of `All_Of.condense` (carrying the conflicting one-ofs that the
message lists), `oneOfInOneOf` the `TypeError` of `One_Of.condense`,
`invalidType` the `TypeError`/`AttributeError` for nodes of the wrong class,
and `fuel` is the artificial out-of-fuel outcome. -/
inductive CondenseErr where
  | fuel : CondenseErr
  | moreThanOneOneOf (oneOfs : List Node) : CondenseErr
  | oneOfInOneOf (specs : List Node) : CondenseErr
  | invalidType : CondenseErr

/-- `All_Of.is_one_of`: a one-of in disguise (stored spec list is exactly one
`One_Of`). -/
def is_one_of (specs : List Node) : Bool :=
  match specs with
  | [Node.oneOf _] => true
  | _ => false

/-- `isinstance(spec, One_Of)`. -/
def isOneOfNode : Node → Bool
  | Node.oneOf _ => true
  | _ => false

/-- `.specs` attribute access on a combinator node. -/
def nodeSpecs : Node → List Node
  | Node.input _ => []
  | Node.allOf s => s
  | Node.oneOf s => s

mutual

/-- `All_Of.condense(specs)` (static method): partition the children into
plain specs and captured one-ofs, raise on more than one one-of, otherwise
merge the single one-of (if any) with the accumulated plain specs. -/
def All_Of_condense : Nat → List Node → Except CondenseErr (List Node)
  | 0, _ => Except.error CondenseErr.fuel
  | fuel+1, specs =>
    match condense_loop fuel specs [] [] with
    | Except.error e => Except.error e
    | Except.ok (new_specs, one_ofs) =>
      if one_ofs.length > 1 then
        Except.error (CondenseErr.moreThanOneOneOf one_ofs)
      else
        match one_ofs with
        | [oo] =>
          match One_Of_add_input_specs fuel oo new_specs with
          | Except.error e => Except.error e
          | Except.ok merged => Except.ok [merged]
        | _ => Except.ok new_specs

/-- The `for spec in specs: match spec` loop of `All_Of.condense`,
accumulating `new_specs` and `one_ofs`.  An `All_Of` child that is a one-of
in disguise has its single `One_Of` captured; any other `All_Of` child is
recursively condensed and spliced; a direct `One_Of` child is captured. -/
def condense_loop : Nat → List Node → List Node → List Node →
    Except CondenseErr (List Node × List Node)
  | 0, _, _, _ => Except.error CondenseErr.fuel
  | _+1, [], new_specs, one_ofs => Except.ok (new_specs, one_ofs)
  | fuel+1, spec :: rest, new_specs, one_ofs =>
    match spec with
    | Node.input i => condense_loop fuel rest (new_specs ++ [Node.input i]) one_ofs
    | Node.allOf s =>
      match s with
      | [Node.oneOf bs] =>
        condense_loop fuel rest new_specs (one_ofs ++ [Node.oneOf bs])
      | _ =>
        match All_Of_condense fuel s with
        | Except.error e => Except.error e
        | Except.ok sub => condense_loop fuel rest (new_specs ++ sub) one_ofs
    | Node.oneOf bs => condense_loop fuel rest new_specs (one_ofs ++ [Node.oneOf bs])

/-- `One_Of.add_input_specs(input_specs)`: push the given specs into every
branch, then re-condense the one-of. -/
def One_Of_add_input_specs : Nat → Node → List Node → Except CondenseErr Node
  | 0, _, _ => Except.error CondenseErr.fuel
  | fuel+1, Node.oneOf branches, input_specs =>
    match add_specs_loop fuel branches input_specs with
    | Except.error e => Except.error e
    | Except.ok branches2 => One_Of_condense fuel (Node.oneOf branches2)
  | _+1, _, _ => Except.error CondenseErr.invalidType

/-- The `for i in range(len(self.specs))` loop of `One_Of.add_input_specs`:
each branch must be an `All_Of` (anything else has no `add_input_specs`
attribute). -/
def add_specs_loop : Nat → List Node → List Node → Except CondenseErr (List Node)
  | 0, _, _ => Except.error CondenseErr.fuel
  | _+1, [], _ => Except.ok []
  | fuel+1, b :: bs, input_specs =>
    match All_Of_add_input_specs fuel b input_specs with
    | Except.error e => Except.error e
    | Except.ok b2 =>
      match add_specs_loop fuel bs input_specs with
      | Except.error e => Except.error e
      | Except.ok rest => Except.ok (b2 :: rest)

/-- `All_Of.add_input_specs(input_specs)`: extend the stored specs with the
condensed input, then re-assign through the condensing setter. -/
def All_Of_add_input_specs : Nat → Node → List Node → Except CondenseErr Node
  | 0, _, _ => Except.error CondenseErr.fuel
  | fuel+1, Node.allOf s, input_specs =>
    match All_Of_condense fuel input_specs with
    | Except.error e => Except.error e
    | Except.ok extra =>
      match All_Of_condense fuel (s ++ extra) with
      | Except.error e => Except.error e
      | Except.ok s2 => Except.ok (Node.allOf s2)
  | _+1, _, _ => Except.error CondenseErr.invalidType

/-- `One_Of.condense`: normalise the branch list with `_condense_specs`,
then raise `TypeError` if a raw `One_Of` branch remains. -/
def One_Of_condense : Nat → Node → Except CondenseErr Node
  | 0, _ => Except.error CondenseErr.fuel
  | fuel+1, Node.oneOf specs =>
    match One_Of_condense_specs fuel specs with
    | Except.error e => Except.error e
    | Except.ok objects =>
      if objects.any isOneOfNode then
        Except.error (CondenseErr.oneOfInOneOf objects)
      else
        Except.ok (Node.oneOf objects)
  | _+1, _ => Except.error CondenseErr.invalidType

/-- `One_Of._condense_specs(specs)`: wrap a bare leaf as a singleton
`All_Of`, splice the condensed branches of a disguised or direct `One_Of`,
and rebuild any other `All_Of` from its specs. -/
def One_Of_condense_specs : Nat → List Node → Except CondenseErr (List Node)
  | 0, _ => Except.error CondenseErr.fuel
  | _+1, [] => Except.ok []
  | fuel+1, spec :: rest =>
    match spec with
    | Node.input i =>
      match All_Of_mk fuel [Node.input i] with
      | Except.error e => Except.error e
      | Except.ok a =>
        match One_Of_condense_specs fuel rest with
        | Except.error e => Except.error e
        | Except.ok r => Except.ok (a :: r)
    | Node.allOf s =>
      match s with
      | [Node.oneOf bs] =>
        match One_Of_condense fuel (Node.oneOf bs) with
        | Except.error e => Except.error e
        | Except.ok oc =>
          match One_Of_condense_specs fuel rest with
          | Except.error e => Except.error e
          | Except.ok r => Except.ok (nodeSpecs oc ++ r)
      | _ =>
        match All_Of_mk fuel s with
        | Except.error e => Except.error e
        | Except.ok a =>
          match One_Of_condense_specs fuel rest with
          | Except.error e => Except.error e
          | Except.ok r => Except.ok (a :: r)
    | Node.oneOf bs =>
      match One_Of_condense fuel (Node.oneOf bs) with
      | Except.error e => Except.error e
      | Except.ok oc =>
        match One_Of_condense_specs fuel rest with
        | Except.error e => Except.error e
        | Except.ok r => Except.ok (nodeSpecs oc ++ r)

/-- `All_Of.__init__`: the constructor stores the condensed child list. -/
def All_Of_mk : Nat → List Node → Except CondenseErr Node
  | 0, _ => Except.error CondenseErr.fuel
  | fuel+1, specs =>
    match All_Of_condense fuel specs with
    | Except.error e => Except.error e
    | Except.ok s => Except.ok (Node.allOf s)

end

/-- `One_Of.__init__`: store the raw branches, then `self.condense()`. -/
def One_Of_mk (fuel : Nat) (specs : List Node) : Except CondenseErr Node :=
  One_Of_condense fuel (Node.oneOf specs)

/-! #### Well-formedness

Every `All_Of`/`One_Of` object reachable through the Python constructors
stores an already-condensed spec list: an `All_Of` holds either plain
leaves only, or exactly one `One_Of`; every branch of a constructed
`One_Of` is an `All_Of` of plain leaves.  `wfNode` captures this
constructor-established invariant; the claim theorems quantify over such
nodes (arbitrary Python "spec node" values). -/

/-- `isinstance(x, InputSpec)` (and not a combinator). -/
def isInputN : Node → Bool
  | Node.input _ => true
  | _ => false

/-- A branch of a constructed `One_Of`: an `All_Of` of plain leaves. -/
def wfBranch : Node → Bool
  | Node.allOf s => s.all isInputN
  | _ => false

/-- A Python-constructible spec node (see section comment). -/
def wfNode : Node → Bool
  | Node.input _ => true
  | Node.allOf [Node.oneOf bs] => bs.all wfBranch
  | Node.allOf s => s.all isInputN
  | Node.oneOf bs => bs.all wfBranch

/-- The `new_specs` accumulated by the loop of `All_Of.condense` on a list of
constructible nodes: leaves pass through, a non-disguised `All_Of` is spliced,
captured one-ofs contribute nothing. -/
def plainsOf : List Node → List Node
  | [] => []
  | Node.input i :: rest => Node.input i :: plainsOf rest
  | Node.allOf s :: rest =>
    if is_one_of s then plainsOf rest else s ++ plainsOf rest
  | Node.oneOf _ :: rest => plainsOf rest

/-- The `one_ofs` captured by the loop of `All_Of.condense`: direct one-ofs
and the single one-of inside a disguised `All_Of`, in sequence order. -/
def onesOf : List Node → List Node
  | [] => []
  | Node.input _ :: rest => onesOf rest
  | Node.allOf s :: rest =>
    if is_one_of s then s ++ onesOf rest else onesOf rest
  | Node.oneOf bs :: rest => Node.oneOf bs :: onesOf rest

/-- Effect of `One_Of.add_input_specs` on one constructed branch: the pushed
specs are appended to the branch spec list. -/
def mergeBranch (extra : List Node) : Node → Node
  | Node.allOf s => Node.allOf (s ++ extra)
  | b => b

/-- Closed form of `All_Of.condense` on constructible nodes, proved below:
error on two or more captured one-ofs, otherwise merge the accumulated plain
specs into every branch of the single captured one-of (if any). -/
def simpleCondense (xs : List Node) : Except CondenseErr (List Node) :=
  if (onesOf xs).length > 1 then
    Except.error (CondenseErr.moreThanOneOneOf (onesOf xs))
  else
    match onesOf xs with
    | [Node.oneOf bs] => Except.ok [Node.oneOf (bs.map (mergeBranch (plainsOf xs)))]
    | _ => Except.ok (plainsOf xs)

lemma is_one_of_true_iff {s : List Node} :
    is_one_of s = true ↔ ∃ bs, s = [Node.oneOf bs] := by
  constructor
  · intro h
    match s, h with
    | [Node.oneOf bs], _ => exact ⟨bs, rfl⟩
  · rintro ⟨bs, rfl⟩
    rfl

lemma is_one_of_inputs {s : List Node} (h : s.all isInputN = true) :
    is_one_of s = false := by
  cases hs : is_one_of s
  · rfl
  · obtain ⟨bs, rfl⟩ := is_one_of_true_iff.mp hs
    simp [isInputN] at h

lemma wfNode_allOf_not_disguised {s : List Node} (hw : wfNode (Node.allOf s) = true)
    (hd : is_one_of s = false) : s.all isInputN = true := by
  match s with
  | [] => rfl
  | Node.input i :: t => exact hw
  | Node.allOf u :: t => exact hw
  | Node.oneOf bs :: t =>
    match t with
    | [] => simp [is_one_of] at hd
    | _ :: _ => exact hw

lemma wfNode_allOf_disguised {bs : List Node}
    (hw : wfNode (Node.allOf [Node.oneOf bs]) = true) : bs.all wfBranch = true := hw

lemma wfNode_oneOf {bs : List Node} (hw : wfNode (Node.oneOf bs) = true) :
    bs.all wfBranch = true := hw

/-! #### Step lemmas for the loop of `All_Of.condense` -/

lemma condense_loop_nil (f : Nat) (ns os : List Node) :
    condense_loop (f+1) [] ns os = Except.ok (ns, os) := rfl

lemma condense_loop_cons_input (f : Nat) (i : Nat) (rest ns os : List Node) :
    condense_loop (f+1) (Node.input i :: rest) ns os =
      condense_loop f rest (ns ++ [Node.input i]) os := rfl

lemma condense_loop_cons_oneOf (f : Nat) (bs rest ns os : List Node) :
    condense_loop (f+1) (Node.oneOf bs :: rest) ns os =
      condense_loop f rest ns (os ++ [Node.oneOf bs]) := rfl

lemma condense_loop_cons_disguised (f : Nat) (bs rest ns os : List Node) :
    condense_loop (f+1) (Node.allOf [Node.oneOf bs] :: rest) ns os =
      condense_loop f rest ns (os ++ [Node.oneOf bs]) := rfl

lemma condense_loop_cons_allOf (f : Nat) (s rest ns os : List Node)
    (hd : is_one_of s = false) :
    condense_loop (f+1) (Node.allOf s :: rest) ns os =
      match All_Of_condense f s with
      | Except.error e => Except.error e
      | Except.ok sub => condense_loop f rest (ns ++ sub) os := by
  match s with
  | [] => rfl
  | Node.input i :: t => rfl
  | Node.allOf u :: t => rfl
  | Node.oneOf bs :: t =>
    match t with
    | [] => simp [is_one_of] at hd
    | _ :: _ => rfl

/-! #### Facts about plain-leaf lists -/

lemma all_isInput_wf : ∀ (xs : List Node), xs.all isInputN = true → xs.all wfNode = true := by
  intro xs
  induction xs with
  | nil => intro _; rfl
  | cons x rest ih =>
    intro h
    rw [List.all_cons, Bool.and_eq_true] at h ⊢
    refine ⟨?_, ih h.2⟩
    cases x with
    | input i => rfl
    | allOf s => simp [isInputN] at h
    | oneOf s => simp [isInputN] at h

lemma plainsOf_inputs : ∀ (xs : List Node), xs.all isInputN = true → plainsOf xs = xs := by
  intro xs
  induction xs with
  | nil => intro _; rfl
  | cons x rest ih =>
    intro h
    rw [List.all_cons, Bool.and_eq_true] at h
    cases x with
    | input i => rw [plainsOf, ih h.2]
    | allOf s => simp [isInputN] at h
    | oneOf s => simp [isInputN] at h

lemma onesOf_inputs : ∀ (xs : List Node), xs.all isInputN = true → onesOf xs = [] := by
  intro xs
  induction xs with
  | nil => intro _; rfl
  | cons x rest ih =>
    intro h
    rw [List.all_cons, Bool.and_eq_true] at h
    cases x with
    | input i => rw [onesOf, ih h.2]
    | allOf s => simp [isInputN] at h
    | oneOf s => simp [isInputN] at h

lemma simpleCondense_inputs (xs : List Node) (h : xs.all isInputN = true) :
    simpleCondense xs = Except.ok xs := by
  rw [simpleCondense, onesOf_inputs xs h, plainsOf_inputs xs h]
  rfl

lemma plainsOf_wf_all_input : ∀ (xs : List Node), xs.all wfNode = true →
    (plainsOf xs).all isInputN = true := by
  intro xs
  induction xs with
  | nil => intro _; rfl
  | cons x rest ih =>
    intro h
    rw [List.all_cons, Bool.and_eq_true] at h
    cases x with
    | input i =>
      rw [plainsOf, List.all_cons, Bool.and_eq_true]
      exact ⟨rfl, ih h.2⟩
    | allOf s =>
      rw [plainsOf]
      by_cases hd : is_one_of s
      · rw [if_pos hd]; exact ih h.2
      · rw [if_neg hd, List.all_append, Bool.and_eq_true]
        exact ⟨wfNode_allOf_not_disguised h.1 (by simpa using hd), ih h.2⟩
    | oneOf bs => rw [plainsOf]; exact ih h.2

lemma onesOf_wf_shape : ∀ (xs : List Node), xs.all wfNode = true →
    ∀ o ∈ onesOf xs, ∃ bs, o = Node.oneOf bs ∧ bs.all wfBranch = true := by
  intro xs
  induction xs with
  | nil => intro _ o ho; simp [onesOf] at ho
  | cons x rest ih =>
    intro h o ho
    rw [List.all_cons, Bool.and_eq_true] at h
    cases x with
    | input i => rw [onesOf] at ho; exact ih h.2 o ho
    | allOf s =>
      rw [onesOf] at ho
      by_cases hd : is_one_of s
      · rw [if_pos hd] at ho
        obtain ⟨bs, rfl⟩ := is_one_of_true_iff.mp hd
        rcases List.mem_append.mp ho with hmem | hmem
        · rcases List.mem_singleton.mp hmem with rfl
          exact ⟨bs, rfl, wfNode_allOf_disguised h.1⟩
        · exact ih h.2 o hmem
      · rw [if_neg hd] at ho; exact ih h.2 o ho
    | oneOf bs =>
      rw [onesOf] at ho
      rcases List.mem_cons.mp ho with rfl | hmem
      · exact ⟨bs, rfl, wfNode_oneOf h.1⟩
      · exact ih h.2 o hmem

lemma wfBranch_merge {b : Node} {inp : List Node} (hb : wfBranch b = true)
    (hinp : inp.all isInputN = true) : wfBranch (mergeBranch inp b) = true := by
  cases b with
  | allOf s =>
    rw [mergeBranch, wfBranch, List.all_append, Bool.and_eq_true]
    exact ⟨hb, hinp⟩
  | input i => simp [wfBranch] at hb
  | oneOf s => simp [wfBranch] at hb

lemma any_isOneOf_of_wfBranch {bs : List Node} (h : bs.all wfBranch = true) :
    bs.any isOneOfNode = false := by
  rw [List.any_eq_false]
  intro b hb
  have hwb := List.all_eq_true.mp h b hb
  cases b with
  | allOf s => simp [isOneOfNode]
  | input i => simp [isOneOfNode]
  | oneOf s => simp [wfBranch] at hwb

/-! #### Sufficient fuel: closed forms on constructible nodes -/

lemma condense_loop_inputs : ∀ (xs : List Node), xs.all isInputN = true →
    ∀ (ns os : List Node) (f : Nat), xs.length + 1 ≤ f →
    condense_loop f xs ns os = Except.ok (ns ++ xs, os) := by
  intro xs
  induction xs with
  | nil =>
    intro _ ns os f hf
    match f, hf with
    | g+1, _ => simp [condense_loop_nil]
  | cons x rest ih =>
    intro h ns os f hf
    rw [List.all_cons, Bool.and_eq_true] at h
    match f, hf with
    | g+1, hf =>
      cases x with
      | input i =>
        rw [condense_loop_cons_input,
          ih h.2 (ns ++ [Node.input i]) os g (by simp at hf ⊢; omega)]
        simp
      | allOf s => simp [isInputN] at h
      | oneOf s => simp [isInputN] at h

lemma All_Of_condense_inputs : ∀ (s : List Node), s.all isInputN = true →
    ∀ (f : Nat), s.length + 2 ≤ f → All_Of_condense f s = Except.ok s := by
  intro s h f hf
  match f, hf with
  | g+1, hf =>
    rw [All_Of_condense, condense_loop_inputs s h [] [] g (by omega)]
    rfl

lemma All_Of_mk_inputs (s : List Node) (hs : s.all isInputN = true) :
    ∀ (f : Nat), s.length + 3 ≤ f → All_Of_mk f s = Except.ok (Node.allOf s) := by
  intro f hf
  match f, hf with
  | g+1, hf =>
    rw [All_Of_mk, All_Of_condense_inputs s hs g (by omega)]

lemma All_Of_add_inputs (s inp : List Node) (hs : s.all isInputN = true)
    (hinp : inp.all isInputN = true) :
    ∀ (f : Nat), s.length + inp.length + 4 ≤ f →
    All_Of_add_input_specs f (Node.allOf s) inp = Except.ok (Node.allOf (s ++ inp)) := by
  intro f hf
  match f, hf with
  | g+1, hf =>
    simp only [All_Of_add_input_specs, All_Of_condense_inputs inp hinp g (by omega),
      All_Of_condense_inputs (s ++ inp)
        (by rw [List.all_append, Bool.and_eq_true]; exact ⟨hs, hinp⟩) g
        (by simp; omega)]

lemma add_specs_loop_pos : ∀ (bs : List Node), bs.all wfBranch = true →
    ∀ (inp : List Node), inp.all isInputN = true →
    ∃ N, ∀ (f : Nat), N ≤ f →
      add_specs_loop f bs inp = Except.ok (bs.map (mergeBranch inp)) := by
  intro bs
  induction bs with
  | nil =>
    intro _ inp _
    refine ⟨1, fun f hf => ?_⟩
    match f, hf with
    | g+1, _ => rfl
  | cons b rest ih =>
    intro hb inp hinp
    rw [List.all_cons, Bool.and_eq_true] at hb
    obtain ⟨N, hN⟩ := ih hb.2 inp hinp
    cases b with
    | allOf s =>
      refine ⟨N + s.length + inp.length + 5, fun f hf => ?_⟩
      match f, hf with
      | g+1, hf =>
        simp only [add_specs_loop, All_Of_add_inputs s inp hb.1 hinp g (by omega),
          hN g (by omega), mergeBranch, List.map_cons]
    | input i => simp [wfBranch] at hb
    | oneOf s => simp [wfBranch] at hb

/-! #### Step lemmas for `One_Of._condense_specs` -/

lemma One_Of_condense_specs_nil (f : Nat) :
    One_Of_condense_specs (f+1) [] = Except.ok [] := rfl

lemma One_Of_condense_specs_cons_oneOf (f : Nat) (bs rest : List Node) :
    One_Of_condense_specs (f+1) (Node.oneOf bs :: rest) =
      match One_Of_condense f (Node.oneOf bs) with
      | Except.error e => Except.error e
      | Except.ok oc =>
        match One_Of_condense_specs f rest with
        | Except.error e => Except.error e
        | Except.ok r => Except.ok (nodeSpecs oc ++ r) := rfl

lemma One_Of_condense_specs_cons_allOf (f : Nat) (s rest : List Node)
    (hd : is_one_of s = false) :
    One_Of_condense_specs (f+1) (Node.allOf s :: rest) =
      match All_Of_mk f s with
      | Except.error e => Except.error e
      | Except.ok a =>
        match One_Of_condense_specs f rest with
        | Except.error e => Except.error e
        | Except.ok r => Except.ok (a :: r) := by
  match s with
  | [] => rfl
  | Node.input i :: t => rfl
  | Node.allOf u :: t => rfl
  | Node.oneOf bs :: t =>
    match t with
    | [] => simp [is_one_of] at hd
    | _ :: _ => rfl

lemma One_Of_condense_specs_branches : ∀ (objs : List Node),
    objs.all wfBranch = true →
    ∃ N, ∀ (f : Nat), N ≤ f → One_Of_condense_specs f objs = Except.ok objs := by
  intro objs
  induction objs with
  | nil =>
    intro _
    refine ⟨1, fun f hf => ?_⟩
    match f, hf with
    | g+1, _ => rfl
  | cons b rest ih =>
    intro hb
    rw [List.all_cons, Bool.and_eq_true] at hb
    obtain ⟨N, hN⟩ := ih hb.2
    cases b with
    | allOf s =>
      refine ⟨N + s.length + 4, fun f hf => ?_⟩
      match f, hf with
      | g+1, hf =>
        simp only [One_Of_condense_specs_cons_allOf g s rest (is_one_of_inputs hb.1),
          All_Of_mk_inputs s hb.1 g (by omega), hN g (by omega)]
    | input i => simp [wfBranch] at hb
    | oneOf s => simp [wfBranch] at hb

lemma One_Of_condense_pos (bs : List Node) (hb : bs.all wfBranch = true) :
    ∃ N, ∀ (f : Nat), N ≤ f →
      One_Of_condense f (Node.oneOf bs) = Except.ok (Node.oneOf bs) := by
  obtain ⟨N, hN⟩ := One_Of_condense_specs_branches bs hb
  refine ⟨N + 1, fun f hf => ?_⟩
  match f, hf with
  | g+1, hf =>
    simp only [One_Of_condense, hN g (by omega)]
    simp [any_isOneOf_of_wfBranch hb]

lemma One_Of_add_pos (bs inp : List Node) (hb : bs.all wfBranch = true)
    (hinp : inp.all isInputN = true) :
    ∃ N, ∀ (f : Nat), N ≤ f →
      One_Of_add_input_specs f (Node.oneOf bs) inp =
        Except.ok (Node.oneOf (bs.map (mergeBranch inp))) := by
  obtain ⟨N1, hN1⟩ := add_specs_loop_pos bs hb inp hinp
  have hmap : (bs.map (mergeBranch inp)).all wfBranch = true := by
    rw [List.all_eq_true]
    intro b hbmem
    obtain ⟨b0, hb0, rfl⟩ := List.mem_map.mp hbmem
    exact wfBranch_merge (List.all_eq_true.mp hb b0 hb0) hinp
  obtain ⟨N2, hN2⟩ := One_Of_condense_pos (bs.map (mergeBranch inp)) hmap
  refine ⟨N1 + N2 + 1, fun f hf => ?_⟩
  match f, hf with
  | g+1, hf =>
    simp only [One_Of_add_input_specs, hN1 g (by omega)]
    exact hN2 g (by omega)

lemma condense_loop_pos : ∀ (xs : List Node), xs.all wfNode = true →
    ∀ (ns os : List Node),
    ∃ N, ∀ (f : Nat), N ≤ f →
      condense_loop f xs ns os = Except.ok (ns ++ plainsOf xs, os ++ onesOf xs) := by
  intro xs
  induction xs with
  | nil =>
    intro _ ns os
    refine ⟨1, fun f hf => ?_⟩
    match f, hf with
    | g+1, _ => simp [condense_loop_nil, plainsOf, onesOf]
  | cons x rest ih =>
    intro h ns os
    rw [List.all_cons, Bool.and_eq_true] at h
    cases x with
    | input i =>
      obtain ⟨N, hN⟩ := ih h.2 (ns ++ [Node.input i]) os
      refine ⟨N + 1, fun f hf => ?_⟩
      match f, hf with
      | g+1, hf =>
        rw [condense_loop_cons_input, hN g (by omega)]
        simp [plainsOf, onesOf]
    | allOf s =>
      by_cases hd : is_one_of s
      · obtain ⟨bs, rfl⟩ := is_one_of_true_iff.mp hd
        obtain ⟨N, hN⟩ := ih h.2 ns (os ++ [Node.oneOf bs])
        refine ⟨N + 1, fun f hf => ?_⟩
        match f, hf with
        | g+1, hf =>
          rw [condense_loop_cons_disguised, hN g (by omega)]
          simp [plainsOf, onesOf, is_one_of]
      · have hs : s.all isInputN = true :=
          wfNode_allOf_not_disguised h.1 (by simpa using hd)
        obtain ⟨N, hN⟩ := ih h.2 (ns ++ s) os
        refine ⟨N + s.length + 3, fun f hf => ?_⟩
        match f, hf with
        | g+1, hf =>
          simp only [condense_loop_cons_allOf g s rest ns os (by simpa using hd),
            All_Of_condense_inputs s hs g (by omega), hN g (by omega)]
          rw [plainsOf, if_neg (by simpa using hd), onesOf, if_neg (by simpa using hd)]
          simp
    | oneOf bs =>
      obtain ⟨N, hN⟩ := ih h.2 ns (os ++ [Node.oneOf bs])
      refine ⟨N + 1, fun f hf => ?_⟩
      match f, hf with
      | g+1, hf =>
        rw [condense_loop_cons_oneOf, hN g (by omega)]
        simp [plainsOf, onesOf]

lemma All_Of_condense_wf_pos (xs : List Node) (h : xs.all wfNode = true) :
    ∃ N, ∀ (f : Nat), N ≤ f → All_Of_condense f xs = simpleCondense xs := by
  obtain ⟨N, hN⟩ := condense_loop_pos xs h [] []
  by_cases hlen : (onesOf xs).length > 1
  · refine ⟨N + 1, fun f hf => ?_⟩
    match f, hf with
    | g+1, hf =>
      rw [All_Of_condense, hN g (by omega)]
      simp only [List.nil_append, simpleCondense, if_pos hlen]
  · match hones : onesOf xs with
    | [] =>
      refine ⟨N + 1, fun f hf => ?_⟩
      match f, hf with
      | g+1, hf =>
        rw [All_Of_condense, hN g (by omega)]
        simp only [List.nil_append, hones, simpleCondense]
    | [oo] =>
      obtain ⟨bs, rfl, hbs⟩ := onesOf_wf_shape xs h oo (by rw [hones]; exact List.mem_singleton.mpr rfl)
      obtain ⟨N2, hN2⟩ := One_Of_add_pos bs (plainsOf xs) hbs (plainsOf_wf_all_input xs h)
      refine ⟨N + N2 + 1, fun f hf => ?_⟩
      match f, hf with
      | g+1, hf =>
        rw [All_Of_condense, hN g (by omega)]
        simp only [List.nil_append, hones]
        rw [simpleCondense, hones]
        simp only [List.length_singleton]
        rw [if_neg (by omega), if_neg (by omega)]
        rw [hN2 g (by omega)]
    | _ :: _ :: _ => simp [hones] at hlen

/-! #### Determinism: any successful run returns the closed form

The eight predicates below state, for each function of the mutual block, that
a run succeeding at some fuel returns the value predicted by the closed form;
they are proved simultaneously by induction on the fuel. -/

abbrev DLoop (f : Nat) : Prop := ∀ (xs ns os : List Node) (r : List Node × List Node),
  xs.all wfNode = true → condense_loop f xs ns os = Except.ok r →
  r = (ns ++ plainsOf xs, os ++ onesOf xs)

abbrev DCond (f : Nat) : Prop := ∀ (xs r : List Node),
  xs.all wfNode = true → All_Of_condense f xs = Except.ok r →
  simpleCondense xs = Except.ok r

abbrev DOneAdd (f : Nat) : Prop := ∀ (bs inp : List Node) (r : Node),
  bs.all wfBranch = true → inp.all isInputN = true →
  One_Of_add_input_specs f (Node.oneOf bs) inp = Except.ok r →
  r = Node.oneOf (bs.map (mergeBranch inp))

abbrev DAddLoop (f : Nat) : Prop := ∀ (bs inp r : List Node),
  bs.all wfBranch = true → inp.all isInputN = true →
  add_specs_loop f bs inp = Except.ok r → r = bs.map (mergeBranch inp)

abbrev DAllAdd (f : Nat) : Prop := ∀ (s inp : List Node) (r : Node),
  s.all isInputN = true → inp.all isInputN = true →
  All_Of_add_input_specs f (Node.allOf s) inp = Except.ok r →
  r = Node.allOf (s ++ inp)

abbrev DOneCond (f : Nat) : Prop := ∀ (bs : List Node) (r : Node),
  bs.all wfBranch = true → One_Of_condense f (Node.oneOf bs) = Except.ok r →
  r = Node.oneOf bs

abbrev DOCS (f : Nat) : Prop := ∀ (objs r : List Node),
  objs.all wfBranch = true → One_Of_condense_specs f objs = Except.ok r → r = objs

abbrev DMk (f : Nat) : Prop := ∀ (s : List Node) (r : Node),
  s.all isInputN = true → All_Of_mk f s = Except.ok r → r = Node.allOf s

lemma det_all : ∀ f : Nat,
    DLoop f ∧ DCond f ∧ DOneAdd f ∧ DAddLoop f ∧ DAllAdd f ∧ DOneCond f ∧
      DOCS f ∧ DMk f := by
  intro f
  induction f with
  | zero =>
    refine ⟨?_, ?_, ?_, ?_, ?_, ?_, ?_, ?_⟩
    · intro xs ns os r _ h; simp [condense_loop] at h
    · intro xs r _ h; simp [All_Of_condense] at h
    · intro bs inp r _ _ h; simp [One_Of_add_input_specs] at h
    · intro bs inp r _ _ h; simp [add_specs_loop] at h
    · intro s inp r _ _ h; simp [All_Of_add_input_specs] at h
    · intro bs r _ h; simp [One_Of_condense] at h
    · intro objs r _ h; simp [One_Of_condense_specs] at h
    · intro s r _ h; simp [All_Of_mk] at h
  | succ g ih =>
    obtain ⟨iLoop, iCond, iOneAdd, iAddLoop, iAllAdd, iOneCond, iOCS, iMk⟩ := ih
    refine ⟨?_, ?_, ?_, ?_, ?_, ?_, ?_, ?_⟩
    · -- DLoop (g+1)
      intro xs ns os r hw h
      cases xs with
      | nil =>
        rw [condense_loop_nil] at h
        simp only [Except.ok.injEq] at h
        subst h
        simp [plainsOf, onesOf]
      | cons x rest =>
        rw [List.all_cons, Bool.and_eq_true] at hw
        cases x with
        | input i =>
          rw [condense_loop_cons_input] at h
          have hr := iLoop rest (ns ++ [Node.input i]) os r hw.2 h
          rw [hr]
          simp [plainsOf, onesOf]
        | allOf s =>
          by_cases hd : is_one_of s
          · obtain ⟨bs, rfl⟩ := is_one_of_true_iff.mp hd
            rw [condense_loop_cons_disguised] at h
            have hr := iLoop rest ns (os ++ [Node.oneOf bs]) r hw.2 h
            rw [hr]
            simp [plainsOf, onesOf, is_one_of]
          · have hd2 : is_one_of s = false := by simpa using hd
            have hs : s.all isInputN = true := wfNode_allOf_not_disguised hw.1 hd2
            rw [condense_loop_cons_allOf g s rest ns os hd2] at h
            cases hsub : All_Of_condense g s with
            | error e => rw [hsub] at h; simp at h
            | ok sub =>
              rw [hsub] at h
              simp only [] at h
              have hsimple := iCond s sub (all_isInput_wf s hs) hsub
              rw [simpleCondense_inputs s hs] at hsimple
              simp only [Except.ok.injEq] at hsimple
              subst hsimple
              have hr := iLoop rest (ns ++ s) os r hw.2 h
              rw [hr]
              simp [plainsOf, onesOf, hd2]
        | oneOf bs =>
          rw [condense_loop_cons_oneOf] at h
          have hr := iLoop rest ns (os ++ [Node.oneOf bs]) r hw.2 h
          rw [hr]
          simp [plainsOf, onesOf]
    · -- DCond (g+1)
      intro xs r hw h
      simp only [All_Of_condense] at h
      cases hloop : condense_loop g xs [] [] with
      | error e => rw [hloop] at h; simp at h
      | ok acc =>
        rw [hloop] at h
        have hacc := iLoop xs [] [] acc hw hloop
        subst hacc
        simp only [List.nil_append] at h
        by_cases hlen : (onesOf xs).length > 1
        · rw [if_pos hlen] at h; simp at h
        · rw [if_neg hlen] at h
          rcases hones : onesOf xs with _ | ⟨oo, _ | ⟨o2, ones2⟩⟩
          · rw [hones] at h
            simp only [Except.ok.injEq] at h
            subst h
            rw [simpleCondense, hones]
            simp [plainsOf]
          · obtain ⟨bs, hoo, hbs⟩ := onesOf_wf_shape xs hw oo
              (by rw [hones]; exact List.mem_singleton.mpr rfl)
            subst hoo
            rw [hones] at h
            replace h : (match One_Of_add_input_specs g (Node.oneOf bs) (plainsOf xs) with
              | Except.error e => Except.error e
              | Except.ok merged => Except.ok [merged]) = Except.ok r := h
            cases hadd : One_Of_add_input_specs g (Node.oneOf bs) (plainsOf xs) with
            | error e => rw [hadd] at h; simp at h
            | ok merged =>
              rw [hadd] at h
              replace h : Except.ok [merged] = Except.ok r := h
              simp only [Except.ok.injEq] at h
              subst h
              have hm := iOneAdd bs (plainsOf xs) merged hbs
                (plainsOf_wf_all_input xs hw) hadd
              rw [hm]
              simp [simpleCondense, hones]
          · rw [hones] at hlen
            simp at hlen
    · -- DOneAdd (g+1)
      intro bs inp r hb hinp h
      simp only [One_Of_add_input_specs] at h
      cases hloop : add_specs_loop g bs inp with
      | error e => rw [hloop] at h; simp at h
      | ok bs2 =>
        rw [hloop] at h
        have hbs2 := iAddLoop bs inp bs2 hb hinp hloop
        subst hbs2
        have hmap : (bs.map (mergeBranch inp)).all wfBranch = true := by
          rw [List.all_eq_true]
          intro b hbmem
          obtain ⟨b0, hb0, rfl⟩ := List.mem_map.mp hbmem
          exact wfBranch_merge (List.all_eq_true.mp hb b0 hb0) hinp
        exact iOneCond (bs.map (mergeBranch inp)) r hmap h
    · -- DAddLoop (g+1)
      intro bs inp r hb hinp h
      cases bs with
      | nil =>
        simp only [add_specs_loop, Except.ok.injEq] at h
        rw [← h]
        rfl
      | cons b rest =>
        rw [List.all_cons, Bool.and_eq_true] at hb
        cases b with
        | allOf s =>
          simp only [add_specs_loop] at h
          cases hb2 : All_Of_add_input_specs g (Node.allOf s) inp with
          | error e => rw [hb2] at h; simp at h
          | ok b2 =>
            rw [hb2] at h
            replace h : (match add_specs_loop g rest inp with
              | Except.error e => Except.error e
              | Except.ok r2 => Except.ok (b2 :: r2)) = Except.ok r := h
            cases hrest : add_specs_loop g rest inp with
            | error e => rw [hrest] at h; simp at h
            | ok r2 =>
              rw [hrest] at h
              replace h : Except.ok (b2 :: r2) = Except.ok r := h
              simp only [Except.ok.injEq] at h
              subst h
              rw [iAllAdd s inp b2 hb.1 hinp hb2, iAddLoop rest inp r2 hb.2 hinp hrest]
              rfl
        | input i => simp [wfBranch] at hb
        | oneOf s => simp [wfBranch] at hb
    · -- DAllAdd (g+1)
      intro s inp r hs hinp h
      simp only [All_Of_add_input_specs] at h
      cases hextra : All_Of_condense g inp with
      | error e => rw [hextra] at h; simp at h
      | ok extra =>
        rw [hextra] at h
        have h1 := iCond inp extra (all_isInput_wf inp hinp) hextra
        rw [simpleCondense_inputs inp hinp] at h1
        simp only [Except.ok.injEq] at h1
        subst h1
        replace h : (match All_Of_condense g (s ++ inp) with
          | Except.error e => Except.error e
          | Except.ok s2 => Except.ok (Node.allOf s2)) = Except.ok r := h
        cases hs2 : All_Of_condense g (s ++ inp) with
        | error e => rw [hs2] at h; simp at h
        | ok s2 =>
          rw [hs2] at h
          have hall : (s ++ inp).all isInputN = true := by
            rw [List.all_append, Bool.and_eq_true]; exact ⟨hs, hinp⟩
          have h2 := iCond (s ++ inp) s2 (all_isInput_wf _ hall) hs2
          rw [simpleCondense_inputs _ hall] at h2
          simp only [Except.ok.injEq] at h2
          subst h2
          replace h : Except.ok (Node.allOf (s ++ inp)) = Except.ok r := h
          simp only [Except.ok.injEq] at h
          exact h.symm
    · -- DOneCond (g+1)
      intro bs r hb h
      simp only [One_Of_condense] at h
      cases hocs : One_Of_condense_specs g bs with
      | error e => rw [hocs] at h; simp at h
      | ok objs =>
        rw [hocs] at h
        have hobjs := iOCS bs objs hb hocs
        subst hobjs
        replace h : (if objs.any isOneOfNode = true then
            Except.error (CondenseErr.oneOfInOneOf objs)
          else Except.ok (Node.oneOf objs)) = Except.ok r := h
        rw [any_isOneOf_of_wfBranch hb] at h
        simp at h
        exact h.symm
    · -- DOCS (g+1)
      intro objs r hb h
      cases objs with
      | nil =>
        simp only [One_Of_condense_specs, Except.ok.injEq] at h
        exact h.symm
      | cons b rest =>
        rw [List.all_cons, Bool.and_eq_true] at hb
        cases b with
        | allOf s =>
          rw [One_Of_condense_specs_cons_allOf g s rest (is_one_of_inputs hb.1)] at h
          cases hmk : All_Of_mk g s with
          | error e => rw [hmk] at h; simp at h
          | ok a =>
            rw [hmk] at h
            replace h : (match One_Of_condense_specs g rest with
              | Except.error e => Except.error e
              | Except.ok r2 => Except.ok (a :: r2)) = Except.ok r := h
            cases hrest : One_Of_condense_specs g rest with
            | error e => rw [hrest] at h; simp at h
            | ok r2 =>
              rw [hrest] at h
              replace h : Except.ok (a :: r2) = Except.ok r := h
              simp only [Except.ok.injEq] at h
              subst h
              rw [iMk s a hb.1 hmk, iOCS rest r2 hb.2 hrest]
        | input i => simp [wfBranch] at hb
        | oneOf s => simp [wfBranch] at hb
    · -- DMk (g+1)
      intro s r hs h
      simp only [All_Of_mk] at h
      cases hc : All_Of_condense g s with
      | error e => rw [hc] at h; simp at h
      | ok s2 =>
        rw [hc] at h
        have h1 := iCond s s2 (all_isInput_wf s hs) hc
        rw [simpleCondense_inputs s hs] at h1
        simp only [Except.ok.injEq] at h1
        subst h1
        replace h : Except.ok (Node.allOf s) = Except.ok r := h
        simp only [Except.ok.injEq] at h
        exact h.symm

/-- Any successful `All_Of.condense` run on constructible nodes returns the
closed-form result. -/
lemma All_Of_condense_det {f : Nat} {xs r : List Node} (hw : xs.all wfNode = true)
    (h : All_Of_condense f xs = Except.ok r) : simpleCondense xs = Except.ok r :=
  (det_all f).2.1 xs r hw h

lemma mergeBranch_nil : ∀ b : Node, mergeBranch [] b = b := by
  intro b
  cases b with
  | allOf s => rw [mergeBranch, List.append_nil]
  | input i => rfl
  | oneOf s => rfl

lemma map_mergeBranch_nil : ∀ bs : List Node, bs.map (mergeBranch []) = bs := by
  intro bs
  induction bs with
  | nil => rfl
  | cons b rest ih => rw [List.map_cons, mergeBranch_nil, ih]

lemma map_mergeBranch_wf {bs inp : List Node} (hb : bs.all wfBranch = true)
    (hinp : inp.all isInputN = true) :
    (bs.map (mergeBranch inp)).all wfBranch = true := by
  rw [List.all_eq_true]
  intro b hbmem
  obtain ⟨b0, hb0, rfl⟩ := List.mem_map.mp hbmem
  exact wfBranch_merge (List.all_eq_true.mp hb b0 hb0) hinp

/-- Shape of any successful closed-form condensation: either no one-of was
captured and the plain specs are returned, or exactly one was and the merged
one-of is the single result. -/
lemma simpleCondense_ok_cases (xs r : List Node) (hw : xs.all wfNode = true)
    (h : simpleCondense xs = Except.ok r) :
    (onesOf xs = [] ∧ r = plainsOf xs) ∨
      (∃ bs, onesOf xs = [Node.oneOf bs] ∧ bs.all wfBranch = true ∧
        r = [Node.oneOf (bs.map (mergeBranch (plainsOf xs)))]) := by
  rw [simpleCondense] at h
  by_cases hlen : (onesOf xs).length > 1
  · rw [if_pos hlen] at h; simp at h
  · rw [if_neg hlen] at h
    rcases hones : onesOf xs with _ | ⟨oo, _ | ⟨o2, ones2⟩⟩
    · rw [hones] at h
      replace h : Except.ok (plainsOf xs) = Except.ok r := h
      simp only [Except.ok.injEq] at h
      exact Or.inl ⟨rfl, h.symm⟩
    · obtain ⟨bs, hoo, hbs⟩ := onesOf_wf_shape xs hw oo
        (by rw [hones]; exact List.mem_singleton.mpr rfl)
      subst hoo
      rw [hones] at h
      replace h : Except.ok [Node.oneOf (bs.map (mergeBranch (plainsOf xs)))] =
        Except.ok r := h
      simp only [Except.ok.injEq] at h
      exact Or.inr ⟨bs, rfl, hbs, h.symm⟩
    · rw [hones] at hlen
      simp at hlen

/-- A condensation result is itself a fixed point of `simpleCondense`. -/
lemma simpleCondense_result_fixed (xs r : List Node) (hw : xs.all wfNode = true)
    (h : simpleCondense xs = Except.ok r) :
    r.all wfNode = true ∧ simpleCondense r = Except.ok r := by
  rcases simpleCondense_ok_cases xs r hw h with ⟨_, rfl⟩ | ⟨bs, _, hbs, rfl⟩
  · have hin := plainsOf_wf_all_input xs hw
    exact ⟨all_isInput_wf _ hin, simpleCondense_inputs _ hin⟩
  · have hbs2 := map_mergeBranch_wf hbs (plainsOf_wf_all_input xs hw)
    constructor
    · rw [List.all_cons]
      simp only [List.all_nil, Bool.and_true]
      exact hbs2
    · rw [simpleCondense]
      have hones : onesOf [Node.oneOf (bs.map (mergeBranch (plainsOf xs)))] =
          [Node.oneOf (bs.map (mergeBranch (plainsOf xs)))] := rfl
      rw [hones]
      rw [if_neg (by simp)]
      show Except.ok [Node.oneOf (List.map (mergeBranch
          (plainsOf [Node.oneOf (bs.map (mergeBranch (plainsOf xs)))]))
          (bs.map (mergeBranch (plainsOf xs))))] = _
      have hplains : plainsOf [Node.oneOf (bs.map (mergeBranch (plainsOf xs)))] = [] := rfl
      rw [hplains, map_mergeBranch_nil]

/-- C2: for every sequence of (constructible) spec nodes on which
`All_Of.condense` succeeds, condensing the result again returns an equal
sequence: condense is idempotent. -/
theorem condense_idempotent (xs : List Node) (f : Nat) (ys : List Node)
    (hw : xs.all wfNode = true) (h : All_Of_condense f xs = Except.ok ys) :
    ∃ g, All_Of_condense g ys = Except.ok ys := by
  have hs := All_Of_condense_det hw h
  obtain ⟨hwys, hfix⟩ := simpleCondense_result_fixed xs ys hw hs
  obtain ⟨N, hN⟩ := All_Of_condense_wf_pos ys hwys
  exact ⟨N, by rw [hN N (Nat.le_refl N), hfix]⟩

/-- Witness for C2 at a concrete sequence mixing a plain leaf and a one-of. -/
theorem condense_idempotent_witness :
    ([Node.input 3, Node.oneOf [Node.allOf [Node.input 1]]].all wfNode = true) ∧
    All_Of_condense 10 [Node.input 3, Node.oneOf [Node.allOf [Node.input 1]]] =
      Except.ok [Node.oneOf [Node.allOf [Node.input 1, Node.input 3]]] ∧
    ∃ g, All_Of_condense g [Node.oneOf [Node.allOf [Node.input 1, Node.input 3]]] =
      Except.ok [Node.oneOf [Node.allOf [Node.input 1, Node.input 3]]] :=
  ⟨by decide, rfl,
    condense_idempotent [Node.input 3, Node.oneOf [Node.allOf [Node.input 1]]] 10
      [Node.oneOf [Node.allOf [Node.input 1, Node.input 3]]] (by decide) rfl⟩

/-- C3: when condensation of a (constructible) child sequence captures exactly
one one-of, the result is that single one-of, and every branch carries the
other accumulated nodes in addition to its own. -/
theorem condense_single_oneOf_merges (xs bs : List Node)
    (hw : xs.all wfNode = true) (hones : onesOf xs = [Node.oneOf bs]) :
    (∀ (f : Nat) (r : List Node), All_Of_condense f xs = Except.ok r →
        r = [Node.oneOf (bs.map (mergeBranch (plainsOf xs)))]) ∧
    (∃ N, ∀ (f : Nat), N ≤ f →
        All_Of_condense f xs =
          Except.ok [Node.oneOf (bs.map (mergeBranch (plainsOf xs)))]) ∧
    (∀ b ∈ bs, ∀ x : Node, x ∈ nodeSpecs b ∨ x ∈ plainsOf xs →
        x ∈ nodeSpecs (mergeBranch (plainsOf xs) b)) := by
  have hbs : bs.all wfBranch = true := by
    obtain ⟨bs2, heq, hbs2⟩ := onesOf_wf_shape xs hw (Node.oneOf bs)
      (by rw [hones]; exact List.mem_singleton.mpr rfl)
    cases heq
    exact hbs2
  have hsimple : simpleCondense xs =
      Except.ok [Node.oneOf (bs.map (mergeBranch (plainsOf xs)))] := by
    rw [simpleCondense, hones]
    rw [if_neg (by simp)]
  refine ⟨?_, ?_, ?_⟩
  · intro f r h
    have hs := All_Of_condense_det hw h
    rw [hsimple] at hs
    simp only [Except.ok.injEq] at hs
    exact hs.symm
  · obtain ⟨N, hN⟩ := All_Of_condense_wf_pos xs hw
    exact ⟨N, fun f hf => by rw [hN f hf, hsimple]⟩
  · intro b hb x hx
    have hwb := List.all_eq_true.mp hbs b hb
    cases b with
    | allOf s =>
      rw [mergeBranch, nodeSpecs]
      rw [nodeSpecs] at hx
      exact List.mem_append.mpr hx
    | input i => simp [wfBranch] at hwb
    | oneOf s => simp [wfBranch] at hwb

/-- Witness for C3: two branches with a shared plain leaf. -/
theorem condense_single_oneOf_merges_witness :
    ([Node.input 7,
        Node.oneOf [Node.allOf [Node.input 1], Node.allOf [Node.input 2]]].all
      wfNode = true) ∧
    onesOf [Node.input 7,
        Node.oneOf [Node.allOf [Node.input 1], Node.allOf [Node.input 2]]] =
      [Node.oneOf [Node.allOf [Node.input 1], Node.allOf [Node.input 2]]] ∧
    ((∀ (f : Nat) (r : List Node),
        All_Of_condense f [Node.input 7,
          Node.oneOf [Node.allOf [Node.input 1], Node.allOf [Node.input 2]]] =
          Except.ok r →
        r = [Node.oneOf ([Node.allOf [Node.input 1], Node.allOf [Node.input 2]].map
              (mergeBranch (plainsOf [Node.input 7,
                Node.oneOf [Node.allOf [Node.input 1], Node.allOf [Node.input 2]]])))]) ∧
      (∃ N, ∀ (f : Nat), N ≤ f →
        All_Of_condense f [Node.input 7,
          Node.oneOf [Node.allOf [Node.input 1], Node.allOf [Node.input 2]]] =
          Except.ok [Node.oneOf ([Node.allOf [Node.input 1], Node.allOf [Node.input 2]].map
              (mergeBranch (plainsOf [Node.input 7,
                Node.oneOf [Node.allOf [Node.input 1], Node.allOf [Node.input 2]]])))]) ∧
      (∀ b ∈ [Node.allOf [Node.input 1], Node.allOf [Node.input 2]],
        ∀ x : Node,
          x ∈ nodeSpecs b ∨
            x ∈ plainsOf [Node.input 7,
              Node.oneOf [Node.allOf [Node.input 1], Node.allOf [Node.input 2]]] →
          x ∈ nodeSpecs (mergeBranch
            (plainsOf [Node.input 7,
              Node.oneOf [Node.allOf [Node.input 1], Node.allOf [Node.input 2]]]) b))) :=
  ⟨by decide, rfl,
    condense_single_oneOf_merges _ _ (by decide) rfl⟩

/-- C5: a successful condensation never returns more than one one-of, and a
(constructible) sequence from which two or more one-ofs are captured is
rejected with the ambiguity error carrying the conflicting one-ofs. -/
theorem condense_at_most_one_oneOf (xs : List Node) (hw : xs.all wfNode = true) :
    (∀ (f : Nat) (r : List Node), All_Of_condense f xs = Except.ok r →
        r.countP isOneOfNode ≤ 1) ∧
    (2 ≤ (onesOf xs).length →
      (∀ (f : Nat) (r : List Node), All_Of_condense f xs ≠ Except.ok r) ∧
      (∃ N, ∀ (f : Nat), N ≤ f →
        All_Of_condense f xs =
          Except.error (CondenseErr.moreThanOneOneOf (onesOf xs)))) := by
  constructor
  · intro f r h
    have hs := All_Of_condense_det hw h
    rcases simpleCondense_ok_cases xs r hw hs with ⟨_, rfl⟩ | ⟨bs, _, _, rfl⟩
    · have hin := plainsOf_wf_all_input xs hw
      have : (plainsOf xs).countP isOneOfNode = 0 := by
        rw [List.countP_eq_zero]
        intro a ha
        have := List.all_eq_true.mp hin a ha
        cases a with
        | input i => simp [isOneOfNode]
        | allOf s => simp [isInputN] at this
        | oneOf s => simp [isInputN] at this
      omega
    · simp [List.countP_cons, isOneOfNode]
  · intro h2
    have hlen : (onesOf xs).length > 1 := by omega
    have herr : simpleCondense xs =
        Except.error (CondenseErr.moreThanOneOneOf (onesOf xs)) := by
      rw [simpleCondense, if_pos hlen]
    constructor
    · intro f r h
      have hs := All_Of_condense_det hw h
      rw [herr] at hs
      simp at hs
    · obtain ⟨N, hN⟩ := All_Of_condense_wf_pos xs hw
      exact ⟨N, fun f hf => by rw [hN f hf, herr]⟩

/-- Witness for C5 at a sequence containing two one-ofs. -/
theorem condense_at_most_one_oneOf_witness :
    ([Node.oneOf [Node.allOf [Node.input 1]],
        Node.oneOf [Node.allOf [Node.input 2]]].all wfNode = true) ∧
    ((∀ (f : Nat) (r : List Node),
        All_Of_condense f [Node.oneOf [Node.allOf [Node.input 1]],
          Node.oneOf [Node.allOf [Node.input 2]]] = Except.ok r →
        r.countP isOneOfNode ≤ 1) ∧
    (2 ≤ (onesOf [Node.oneOf [Node.allOf [Node.input 1]],
          Node.oneOf [Node.allOf [Node.input 2]]]).length →
      (∀ (f : Nat) (r : List Node),
        All_Of_condense f [Node.oneOf [Node.allOf [Node.input 1]],
          Node.oneOf [Node.allOf [Node.input 2]]] ≠ Except.ok r) ∧
      (∃ N, ∀ (f : Nat), N ≤ f →
        All_Of_condense f [Node.oneOf [Node.allOf [Node.input 1]],
          Node.oneOf [Node.allOf [Node.input 2]]] =
          Except.error (CondenseErr.moreThanOneOneOf
            (onesOf [Node.oneOf [Node.allOf [Node.input 1]],
              Node.oneOf [Node.allOf [Node.input 2]]]))))) :=
  ⟨by decide, condense_at_most_one_oneOf _ (by decide)⟩

/-- C4 counterexample: constructing a `One_Of` whose two children are both
`One_Of` does NOT raise; the nested one-ofs are flattened into the branch
list (their branches are spliced as additional alternatives). -/
theorem oneOf_of_oneOfs_flattens_counterexample :
    One_Of_mk 20 [Node.oneOf [Node.allOf [Node.input 1]],
        Node.oneOf [Node.allOf [Node.input 2]]] =
      Except.ok (Node.oneOf [Node.allOf [Node.input 1], Node.allOf [Node.input 2]]) :=
  rfl

/-- C4 amended: constructing a `One_Of` from two constructed `One_Of`
children succeeds and splices their branches as additional alternatives;
the nested-one-of `TypeError` is not reachable this way. -/
lemma OCS_pair (bs1 bs2 : List Node) (h1 : bs1.all wfBranch = true)
    (h2 : bs2.all wfBranch = true) :
    ∃ N, ∀ (f : Nat), N ≤ f →
      One_Of_condense_specs f [Node.oneOf bs1, Node.oneOf bs2] =
        Except.ok (bs1 ++ bs2) := by
  obtain ⟨N1, hN1⟩ := One_Of_condense_pos bs1 h1
  obtain ⟨N2, hN2⟩ := One_Of_condense_pos bs2 h2
  refine ⟨N1 + N2 + 3, fun f hf => ?_⟩
  match f, hf with
  | g+1, hf =>
    rw [One_Of_condense_specs_cons_oneOf g bs1 [Node.oneOf bs2], hN1 g (by omega)]
    show (match One_Of_condense_specs g [Node.oneOf bs2] with
      | Except.error e => Except.error e
      | Except.ok r => Except.ok (nodeSpecs (Node.oneOf bs1) ++ r)) =
      Except.ok (bs1 ++ bs2)
    match g, hf with
    | g2+1, hf =>
      have hone : One_Of_condense_specs (g2+1) [Node.oneOf bs2] =
          Except.ok (nodeSpecs (Node.oneOf bs2) ++ []) := by
        rw [One_Of_condense_specs_cons_oneOf g2 bs2 [], hN2 g2 (by omega)]
        show (match One_Of_condense_specs g2 [] with
          | Except.error e => Except.error e
          | Except.ok r => Except.ok (nodeSpecs (Node.oneOf bs2) ++ r)) = _
        match g2, hf with
        | g3+1, _ => rw [One_Of_condense_specs_nil g3]
      rw [hone]
      show Except.ok (nodeSpecs (Node.oneOf bs1) ++ (nodeSpecs (Node.oneOf bs2) ++ [])) = _
      rw [nodeSpecs, nodeSpecs, List.append_nil]

/-- C4 amended: constructing a `One_Of` from two constructed `One_Of`
children succeeds and splices their branches as additional alternatives;
the nested-one-of `TypeError` is not reachable this way. -/
theorem oneOf_of_oneOfs_flattens (bs1 bs2 : List Node)
    (h1 : bs1.all wfBranch = true) (h2 : bs2.all wfBranch = true) :
    ∃ N, ∀ (f : Nat), N ≤ f →
      One_Of_mk f [Node.oneOf bs1, Node.oneOf bs2] =
        Except.ok (Node.oneOf (bs1 ++ bs2)) := by
  obtain ⟨N, hN⟩ := OCS_pair bs1 bs2 h1 h2
  refine ⟨N + 1, fun f hf => ?_⟩
  match f, hf with
  | g+1, hf =>
    show One_Of_condense (g+1) (Node.oneOf [Node.oneOf bs1, Node.oneOf bs2]) = _
    simp only [One_Of_condense]
    rw [hN g (by omega)]
    show (if (bs1 ++ bs2).any isOneOfNode = true then
        Except.error (CondenseErr.oneOfInOneOf (bs1 ++ bs2))
      else Except.ok (Node.oneOf (bs1 ++ bs2))) = Except.ok (Node.oneOf (bs1 ++ bs2))
    rw [List.any_append, any_isOneOf_of_wfBranch h1, any_isOneOf_of_wfBranch h2]
    simp

/-- Witness for the amended C4 statement. -/
theorem oneOf_of_oneOfs_flattens_witness :
    ([Node.allOf [Node.input 1]].all wfBranch = true) ∧
    ([Node.allOf [Node.input 2]].all wfBranch = true) ∧
    ∃ N, ∀ (f : Nat), N ≤ f →
      One_Of_mk f [Node.oneOf [Node.allOf [Node.input 1]],
          Node.oneOf [Node.allOf [Node.input 2]]] =
        Except.ok (Node.oneOf ([Node.allOf [Node.input 1]] ++ [Node.allOf [Node.input 2]])) :=
  ⟨by decide, by decide,
    oneOf_of_oneOfs_flattens [Node.allOf [Node.input 1]] [Node.allOf [Node.input 2]]
      (by decide) (by decide)⟩

/-! ### Part B: the legacy inline-dat codec (`fourcipp/legacy_io/inline_dat.py`)

Lines and tokens are lists of characters (Python `str.split()` with no
argument splits on whitespace runs and drops empty pieces). -/

abbrev Tok := List Char

/-- Python whitespace characters relevant to `str.split()`. -/
def wsChar (c : Char) : Bool :=
  c = ' ' || c = '\t' || c = '\n' || c = '\r' || c = '\x0b' || c = '\x0c'

/-- A token as produced by splitting: nonempty and whitespace-free. -/
def wfTok (t : Tok) : Bool := !t.isEmpty && t.all (fun c => !wsChar c)

lemma dropWhile_length_le (p : Char → Bool) :
    ∀ l : List Char, (l.dropWhile p).length ≤ l.length := by
  intro l
  induction l with
  | nil => simp
  | cons c cs ih =>
    rw [List.dropWhile_cons]
    by_cases hp : p c
    · simp only [hp, if_true]
      simp only [List.length_cons]
      omega
    · simp [hp]

/-- `str.split()` worker; the fuel starts at the character count and each
step consumes at least one character, so it never runs out. -/
def splitWsF : Nat → List Char → List Tok
  | _, [] => []
  | 0, _ :: _ => []
  | fuel+1, c :: cs =>
    if wsChar c then splitWsF fuel cs
    else (c :: cs.takeWhile (fun d => !wsChar d)) ::
      splitWsF fuel (cs.dropWhile (fun d => !wsChar d))

/-- `str.split()`: split on whitespace runs, dropping empty pieces. -/
def splitWs (l : List Char) : List Tok := splitWsF l.length l

lemma splitWsF_fuel : ∀ (f : Nat), ∀ (g : Nat) (l : List Char),
    l.length ≤ f → l.length ≤ g → splitWsF f l = splitWsF g l := by
  intro f
  induction f with
  | zero =>
    intro g l hf _
    have hnil : l = [] := by
      cases l with
      | nil => rfl
      | cons c cs => simp at hf
    subst hnil
    cases g <;> rfl
  | succ f2 ih =>
    intro g l hf hg
    cases l with
    | nil => cases g <;> rfl
    | cons c cs =>
      match g, hg with
      | g2+1, hg =>
        simp only [splitWsF]
        by_cases hc : wsChar c = true
        · rw [if_pos hc, if_pos hc]
          exact ih g2 cs (by simp at hf; omega) (by simp at hg; omega)
        · rw [if_neg hc, if_neg hc]
          have hd := dropWhile_length_le (fun d => !wsChar d) cs
          rw [ih g2 (cs.dropWhile (fun d => !wsChar d))
            (by simp at hf; omega) (by simp at hg; omega)]

/-- `" ".join(...)` on a list of tokens. -/
def joinSp : List Tok → List Char
  | [] => []
  | [t] => t
  | t :: ts => t ++ ' ' :: joinSp ts

/-! #### Decimal integers (Python `str`/`int` on ints)

`fourcipp/utils/metadata.py` (providing `METADATA_TO_PYTHON`) is not under
`src/`; the primitive decoders are modelled from the spec (section 4.4:
decoders return typed values; the round-trip contract fixes them as inverses
of the textual forms the encoder produces). -/

def digitChar (d : Nat) : Char := Char.ofNat (48 + d)

def natRenderAux : Nat → Nat → List Char
  | 0, _ => []
  | _+1, 0 => []
  | fuel+1, n+1 => natRenderAux fuel ((n+1) / 10) ++ [digitChar ((n+1) % 10)]

/-- Python `str` of a natural number. -/
def natRender (n : Nat) : List Char :=
  if n = 0 then ['0'] else natRenderAux n n

/-- Python `str` of an int. -/
def intRender (i : Int) : List Char :=
  if i < 0 then '-' :: natRender i.natAbs else natRender i.natAbs

def isDig (c : Char) : Bool := 48 ≤ c.toNat && c.toNat ≤ 57

def digVal (c : Char) : Nat := c.toNat - 48

/-- Modelled from the spec: decimal digit-string parsing. -/
def parseNat (l : List Char) : Option Nat :=
  if l ≠ [] ∧ l.all isDig = true then
    some (l.foldl (fun a c => a * 10 + digVal c) 0)
  else none

/-- Modelled from the spec: Python `int(token)` (optional sign, digits). -/
def parseInt (l : List Char) : Option Int :=
  match l with
  | [] => none
  | c :: rest =>
    if c = '-' then (parseNat rest).map (fun n => -(n : Int))
    else if c = '+' then (parseNat rest).map (fun n => (n : Int))
    else (parseNat l).map (fun n => (n : Int))

/-! #### Values and casting functions

A decoded scalar is an int, a bool, or a raw string (string, path and enum
entries); a decoded vector is a list of such scalars — exactly the shapes the
casting functions of `inline_dat.py` can produce.  IEEE-754 `double` entries
are floating point and are outside this embedding. -/

inductive Prim where
  | int (i : Int) : Prim
  | bool (b : Bool) : Prim
  | str (s : Tok) : Prim
deriving DecidableEq

inductive PValue where
  | prim (p : Prim) : PValue
  | list (vs : List Prim) : PValue
deriving DecidableEq

inductive PrimT where
  | int : PrimT
  | bool : PrimT
  | string : PrimT
  | path : PrimT
deriving DecidableEq

/-- Errors of the decoder: `keyError` is the dict miss in `inline_dat_read`,
`indexError` the `[0]` on an empty pop, `valueError` a failed `int(token)`,
`unknownEntry` the enum `ValueError`; `fuelImpossible` is the artificial
out-of-fuel outcome, unreachable at the fuel `inline_dat_read` uses. -/
inductive DErr where
  | keyError (key : Tok) : DErr
  | indexError : DErr
  | valueError (tok : Tok) : DErr
  | unknownEntry (entry : Tok) (choices : List Tok) : DErr
  | fuelImpossible : DErr
deriving DecidableEq

/-- Modelled from the spec: the `METADATA_TO_PYTHON` primitive casts.  Ints
parse as decimal integers; booleans accept the lowercase literals the encoder
writes for scalars and the Python capitalised forms it writes inside vectors
(the round-trip contract of section 4.4 makes the parser invert both);
strings and paths keep the raw token. -/
def castPrim : PrimT → Tok → Except DErr Prim
  | PrimT.int, t =>
    match parseInt t with
    | some i => Except.ok (Prim.int i)
    | none => Except.error (DErr.valueError t)
  | PrimT.bool, t =>
    if t = ['t','r','u','e'] ∨ t = ['T','r','u','e'] then Except.ok (Prim.bool true)
    else if t = ['f','a','l','s','e'] ∨ t = ['F','a','l','s','e'] then
      Except.ok (Prim.bool false)
    else Except.error (DErr.valueError t)
  | PrimT.string, t => Except.ok (Prim.str t)
  | PrimT.path, t => Except.ok (Prim.str t)

/-- `_left_pop(line_list, n_entries)`: slice off the first `n` entries.
Python slicing does not range-check: when fewer entries remain, the result is
silently shorter. -/
def left_pop (l : List Tok) (n_entries : Nat) : List Tok × List Tok :=
  (l.take n_entries, l.drop n_entries)

/-- `_extract_entry(line_list, entry_type)`: pop one token and cast it
(`[0]` on an empty pop raises IndexError). -/
def extract_entry (l : List Tok) (entry_type : PrimT) :
    Except DErr PValue × List Tok :=
  match left_pop l 1 with
  | (entries, l2) =>
    match entries with
    | [] => (Except.error DErr.indexError, l2)
    | e :: _ =>
      match castPrim entry_type e with
      | Except.error err => (Except.error err, l2)
      | Except.ok p => (Except.ok (PValue.prim p), l2)

/-- The comprehension `[entry_type(e) for e in ...]` of `_extract_vector`. -/
def cast_tokens (entry_type : PrimT) : List Tok → Except DErr (List Prim)
  | [] => Except.ok []
  | e :: es =>
    match castPrim entry_type e with
    | Except.error err => Except.error err
    | Except.ok v =>
      match cast_tokens entry_type es with
      | Except.error err => Except.error err
      | Except.ok vs => Except.ok (v :: vs)

/-- `_extract_vector(line_list, entry_type, size)`: pop `size` tokens (fewer
when the list is shorter) and cast each. -/
def extract_vector (l : List Tok) (entry_type : PrimT) (size : Nat) :
    Except DErr PValue × List Tok :=
  match left_pop l size with
  | (entries, l2) =>
    match cast_tokens entry_type entries with
    | Except.error err => (Except.error err, l2)
    | Except.ok vs => (Except.ok (PValue.list vs), l2)

/-- `_extract_enum(line_list, choices)`: pop one token, require it to be a
declared choice. -/
def extract_enum (l : List Tok) (choices : List Tok) :
    Except DErr PValue × List Tok :=
  match left_pop l 1 with
  | (entries, l2) =>
    match entries with
    | [] => (Except.error DErr.indexError, l2)
    | e :: _ =>
      if e ∈ choices then (Except.ok (PValue.prim (Prim.str e)), l2)
      else (Except.error (DErr.unknownEntry e choices), l2)

/-- One entry of a casting table: the `functools.partial` closures produced
by `_entry_casting_factory` (a scalar cast, a sized vector cast, or an enum
cast). -/
inductive CastSpec where
  | prim (t : PrimT) : CastSpec
  | vector (t : PrimT) (size : Nat) : CastSpec
  | enum (choices : List Tok) : CastSpec
deriving DecidableEq

/-- Calling the casting closure on the remaining token list. -/
def applyCast : CastSpec → List Tok → Except DErr PValue × List Tok
  | CastSpec.prim t, l => extract_entry l t
  | CastSpec.vector t n, l => extract_vector l t n
  | CastSpec.enum cs, l => extract_enum l cs

instance exceptDecEq {e a : Type} [DecidableEq e] [DecidableEq a] :
    DecidableEq (Except e a)
  | Except.ok x, Except.ok y =>
    if h : x = y then isTrue (by rw [h])
    else isFalse (fun hc => h (Except.ok.inj hc))
  | Except.error x, Except.error y =>
    if h : x = y then isTrue (by rw [h])
    else isFalse (fun hc => h (Except.error.inj hc))
  | Except.ok _, Except.error _ => isFalse (fun hc => Except.noConfusion hc)
  | Except.error _, Except.ok _ => isFalse (fun hc => Except.noConfusion hc)

abbrev Table := List (Tok × CastSpec)

abbrev Record := List (Tok × PValue)

/-- Python dict lookup (first binding wins; `casting_factory` builds tables
with unique keys). -/
def dictLookup {α : Type} : List (Tok × α) → Tok → Option α
  | [], _ => none
  | (k, v) :: rest, key => if key = k then some v else dictLookup rest key

/-- Python `entry[key] = value`: update in place, else append. -/
def dictUpdate {α : Type} : List (Tok × α) → Tok → α → List (Tok × α)
  | [], key, v => [(key, v)]
  | (k, w) :: rest, key, v =>
    if key = k then (k, v) :: rest else (k, w) :: dictUpdate rest key v

/-- The `while line_list:` loop of `inline_dat_read`: pop the keyword, look
it up (a miss is a `KeyError` carrying the keyword), run its casting
function, bind the value.  The fuel starts at the list length and each
iteration consumes at least the keyword token, so fuel never runs out. -/
def inline_dat_read_loop (table : Table) :
    Nat → List Tok → Record → Except DErr Record × List Tok
  | _, [], entry => (Except.ok entry, [])
  | 0, l, _ => (Except.error DErr.fuelImpossible, l)
  | fuel+1, key :: rest, entry =>
    match dictLookup table key with
    | none => (Except.error (DErr.keyError key), rest)
    | some cs =>
      match applyCast cs rest with
      | (Except.error e, rest2) => (Except.error e, rest2)
      | (Except.ok v, rest2) =>
        inline_dat_read_loop table fuel rest2 (dictUpdate entry key v)

/-- `inline_dat_read(line_list, dat_casting)`.  The pair's second component
is the final content of the caller's (destructively consumed) list. -/
def inline_dat_read (line_list : List Tok) (dat_casting : Table) :
    Except DErr Record × List Tok :=
  inline_dat_read_loop dat_casting line_list.length line_list []

/-! #### The encoder (`to_dat_string` and keyword lines) -/

/-- Python `str()` on a decoded scalar. -/
def pyStr : Prim → List Char
  | Prim.int i => intRender i
  | Prim.bool b => if b then ['T','r','u','e'] else ['F','a','l','s','e']
  | Prim.str s => s

/-- `to_dat_string(object)`: lists are space-joined element strings, booleans
are lowercased, everything else is `str(object)`. -/
def to_dat_string : PValue → List Char
  | PValue.list vs => joinSp (vs.map pyStr)
  | PValue.prim (Prim.bool b) =>
    if b then ['t','r','u','e'] else ['f','a','l','s','e']
  | PValue.prim p => pyStr p

/-- One keyword field as written by the legacy writers:
`f"{key} {to_dat_string(value)}"`. -/
def encode_field (key : Tok) (v : PValue) : List Char :=
  key ++ ' ' :: to_dat_string v

/-- A whole record on one legacy line, fields space-separated. -/
def encodeLine (record : Record) : List Char :=
  joinSp (record.map (fun kv => encode_field kv.1 kv.2))

/-- The token sequence an encoded value contributes to the split line. -/
def valueTokens : PValue → List Tok
  | PValue.list vs => vs.map pyStr
  | PValue.prim p => [to_dat_string (PValue.prim p)]

/-- The token sequence of a whole encoded record. -/
def recordTokens : Record → List Tok
  | [] => []
  | (k, v) :: rest => k :: valueTokens v ++ recordTokens rest

/-! #### Schema conformance of a record -/

/-- The value has the shape a given primitive cast decodes to (string-like
values must be genuine tokens for the line to tokenise back). -/
def matchesPrim : PrimT → Prim → Bool
  | PrimT.int, Prim.int _ => true
  | PrimT.bool, Prim.bool _ => true
  | PrimT.string, Prim.str s => wfTok s
  | PrimT.path, Prim.str s => wfTok s
  | _, _ => false

/-- The value has the shape the casting entry decodes to: matching scalar,
vector of declared (positive) size with matching elements, or a declared
enum choice. -/
def matchesField : CastSpec → PValue → Bool
  | CastSpec.prim t, PValue.prim p => matchesPrim t p
  | CastSpec.vector t n, PValue.list vs =>
    (vs.length == n) && !vs.isEmpty && vs.all (matchesPrim t)
  | CastSpec.enum cs, PValue.prim (Prim.str e) => decide (e ∈ cs) && wfTok e
  | _, _ => false

/-- One record field is a keyword field of the table with a conforming
value. -/
def fieldOk (table : Table) (kv : Tok × PValue) : Bool :=
  wfTok kv.1 &&
    (match dictLookup table kv.1 with
     | some cs => matchesField cs kv.2
     | none => false)

/-- The record matches the schema the table was built from: distinct
keywords, each bound to a conforming value. -/
def Matches (table : Table) (record : Record) : Prop :=
  (record.map Prod.fst).Nodup ∧ record.all (fieldOk table) = true

instance matchesDecidable (table : Table) (record : Record) :
    Decidable (Matches table record) :=
  decidable_of_iff
    ((record.map Prod.fst).Nodup ∧ record.all (fieldOk table) = true) Iff.rfl

/-! #### Integer rendering round-trips -/

lemma digitChar_isDig {d : Nat} (h : d < 10) : isDig (digitChar d) = true := by
  interval_cases d <;> decide

lemma digVal_digitChar {d : Nat} (h : d < 10) : digVal (digitChar d) = d := by
  interval_cases d <;> decide

lemma natRenderAux_spec : ∀ (fuel n : Nat), n ≤ fuel →
    (natRenderAux fuel n).all isDig = true ∧
    (n ≠ 0 → natRenderAux fuel n ≠ []) ∧
    ∀ acc : Nat, (natRenderAux fuel n).foldl (fun a c => a * 10 + digVal c) acc =
      acc * 10 ^ (natRenderAux fuel n).length + n := by
  intro fuel
  induction fuel with
  | zero =>
    intro n hn
    have hn0 : n = 0 := by omega
    subst hn0
    refine ⟨rfl, fun hc => absurd rfl hc, fun acc => by simp [natRenderAux]⟩
  | succ f ih =>
    intro n hn
    cases n with
    | zero =>
      refine ⟨rfl, fun hc => absurd rfl hc, fun acc => by simp [natRenderAux]⟩
    | succ m =>
      have hdiv : (m+1) / 10 ≤ f := by
        have := Nat.div_lt_self (show 0 < m+1 by omega) (show 1 < 10 by omega)
        omega
      obtain ⟨hall, _, hfold⟩ := ih ((m+1) / 10) hdiv
      have hmod : (m+1) % 10 < 10 := Nat.mod_lt _ (by omega)
      refine ⟨?_, ?_, ?_⟩
      · rw [natRenderAux, List.all_append]
        simp [hall, digitChar_isDig hmod]
      · intro _
        rw [natRenderAux]
        simp
      · intro acc
        rw [natRenderAux, List.foldl_append]
        simp only [List.foldl_cons, List.foldl_nil]
        rw [hfold acc, digVal_digitChar hmod, List.length_append]
        simp only [List.length_cons, List.length_nil]
        have hdm : 10 * ((m+1) / 10) + (m+1) % 10 = m+1 := Nat.div_add_mod (m+1) 10
        rw [pow_succ]
        ring_nf
        omega

lemma parseNat_natRender (n : Nat) : parseNat (natRender n) = some n := by
  by_cases h : n = 0
  · subst h
    decide
  · rw [natRender, if_neg h]
    obtain ⟨hall, hne, hfold⟩ := natRenderAux_spec n n (Nat.le_refl n)
    rw [parseNat, if_pos ⟨hne h, hall⟩, hfold 0]
    simp

lemma natRender_all_isDig (n : Nat) : (natRender n).all isDig = true := by
  by_cases h : n = 0
  · subst h; decide
  · rw [natRender, if_neg h]
    exact (natRenderAux_spec n n (Nat.le_refl n)).1

lemma natRender_ne_nil (n : Nat) : natRender n ≠ [] := by
  by_cases h : n = 0
  · subst h; decide
  · rw [natRender, if_neg h]
    exact (natRenderAux_spec n n (Nat.le_refl n)).2.1 h

lemma wsChar_toNat_lt {c : Char} (h : wsChar c = true) : c.toNat < 48 := by
  rw [wsChar] at h
  simp only [Bool.or_eq_true, decide_eq_true_eq] at h
  rcases h with ((((h | h) | h) | h) | h) | h <;> subst h <;> decide

lemma isDig_toNat {c : Char} (h : isDig c = true) :
    48 ≤ c.toNat ∧ c.toNat ≤ 57 := by
  rw [isDig] at h
  simp only [Bool.and_eq_true, decide_eq_true_eq] at h
  exact h

lemma isDig_not_ws {c : Char} (h : isDig c = true) : wsChar c = false := by
  cases hw : wsChar c
  · rfl
  · have h1 := wsChar_toNat_lt hw
    have h2 := isDig_toNat h
    omega

lemma all_not_ws_of_all_isDig {l : List Char} (h : l.all isDig = true) :
    l.all (fun c => !wsChar c) = true := by
  rw [List.all_eq_true] at h ⊢
  intro c hc
  rw [isDig_not_ws (h c hc)]
  rfl

lemma wfTok_natRender (n : Nat) : wfTok (natRender n) = true := by
  rw [wfTok, Bool.and_eq_true]
  constructor
  · cases hr : natRender n with
    | nil => exact absurd hr (natRender_ne_nil n)
    | cons c cs => rfl
  · exact all_not_ws_of_all_isDig (natRender_all_isDig n)

lemma wfTok_intRender (i : Int) : wfTok (intRender i) = true := by
  rw [intRender]
  by_cases hneg : i < 0
  · rw [if_pos hneg, wfTok, Bool.and_eq_true]
    refine ⟨rfl, ?_⟩
    rw [List.all_cons, Bool.and_eq_true]
    constructor
    · decide
    · exact all_not_ws_of_all_isDig (natRender_all_isDig i.natAbs)
  · rw [if_neg hneg]
    exact wfTok_natRender i.natAbs

lemma parseInt_intRender (i : Int) : parseInt (intRender i) = some i := by
  rw [intRender]
  by_cases hneg : i < 0
  · rw [if_pos hneg]
    rw [parseInt, if_pos rfl, parseNat_natRender]
    show some (-(i.natAbs : Int)) = some i
    simp only [Option.some.injEq]
    omega
  · rw [if_neg hneg]
    cases hr : natRender i.natAbs with
    | nil => exact absurd hr (natRender_ne_nil i.natAbs)
    | cons c cs =>
      have hdig : isDig c = true := by
        have := natRender_all_isDig i.natAbs
        rw [hr, List.all_cons, Bool.and_eq_true] at this
        exact this.1
      have hc := isDig_toNat hdig
      have hcm : ¬ c = '-' := by
        intro hcc
        subst hcc
        revert hc
        decide
      have hcp : ¬ c = '+' := by
        intro hcc
        subst hcc
        revert hc
        decide
      rw [parseInt, if_neg hcm, if_neg hcp, ← hr, parseNat_natRender]
      show some ((i.natAbs : Int)) = some i
      simp only [Option.some.injEq]
      omega

/-! #### The casting functions invert the encoder -/

lemma castPrim_pyStr {t : PrimT} {p : Prim} (h : matchesPrim t p = true) :
    castPrim t (pyStr p) = Except.ok p := by
  cases t with
  | int =>
    cases p with
    | int i => simp only [pyStr, castPrim, parseInt_intRender]
    | bool b => simp [matchesPrim] at h
    | str s => simp [matchesPrim] at h
  | bool =>
    cases p with
    | bool b => cases b <;> decide
    | int i => simp [matchesPrim] at h
    | str s => simp [matchesPrim] at h
  | string =>
    cases p with
    | str s => rfl
    | int i => simp [matchesPrim] at h
    | bool b => simp [matchesPrim] at h
  | path =>
    cases p with
    | str s => rfl
    | int i => simp [matchesPrim] at h
    | bool b => simp [matchesPrim] at h

lemma castPrim_to_dat {t : PrimT} {p : Prim} (h : matchesPrim t p = true) :
    castPrim t (to_dat_string (PValue.prim p)) = Except.ok p := by
  cases p with
  | bool b =>
    cases t with
    | bool => cases b <;> decide
    | int => simp [matchesPrim] at h
    | string => simp [matchesPrim] at h
    | path => simp [matchesPrim] at h
  | int i => exact castPrim_pyStr h
  | str s => exact castPrim_pyStr h

lemma wfTok_pyStr {t : PrimT} {p : Prim} (h : matchesPrim t p = true) :
    wfTok (pyStr p) = true := by
  cases p with
  | int i => exact wfTok_intRender i
  | bool b => cases b <;> decide
  | str s =>
    cases t with
    | string => exact h
    | path => exact h
    | int => simp [matchesPrim] at h
    | bool => simp [matchesPrim] at h

lemma wfTok_to_dat_prim {t : PrimT} {p : Prim} (h : matchesPrim t p = true) :
    wfTok (to_dat_string (PValue.prim p)) = true := by
  cases p with
  | bool b => cases b <;> decide
  | int i => exact wfTok_pyStr h
  | str s => exact wfTok_pyStr h

lemma matchesField_vector {t : PrimT} {n : Nat} {vs : List Prim}
    (h : matchesField (CastSpec.vector t n) (PValue.list vs) = true) :
    vs.length = n ∧ vs ≠ [] ∧ vs.all (matchesPrim t) = true := by
  rw [matchesField] at h
  simp only [Bool.and_eq_true, beq_iff_eq, Bool.not_eq_true'] at h
  refine ⟨h.1.1, ?_, h.2⟩
  intro hnil
  rw [hnil] at h
  simp at h

lemma matchesField_enum {cs : List Tok} {e : Tok}
    (h : matchesField (CastSpec.enum cs) (PValue.prim (Prim.str e)) = true) :
    e ∈ cs ∧ wfTok e = true := by
  rw [matchesField] at h
  simp only [Bool.and_eq_true, decide_eq_true_eq] at h
  exact h

lemma valueTokens_wf {cs : CastSpec} {v : PValue} (h : matchesField cs v = true) :
    ∀ tk ∈ valueTokens v, wfTok tk = true := by
  cases cs with
  | prim t =>
    cases v with
    | prim p =>
      intro tk htk
      rw [valueTokens, List.mem_singleton] at htk
      subst htk
      exact wfTok_to_dat_prim (t := t) h
    | list vs => simp [matchesField] at h
  | vector t n =>
    cases v with
    | list vs =>
      obtain ⟨_, _, hall⟩ := matchesField_vector h
      intro tk htk
      rw [valueTokens] at htk
      obtain ⟨p, hp, rfl⟩ := List.mem_map.mp htk
      exact wfTok_pyStr (t := t) (List.all_eq_true.mp hall p hp)
    | prim p => simp [matchesField] at h
  | enum cls =>
    cases v with
    | prim p =>
      cases p with
      | str e =>
        obtain ⟨_, hwf⟩ := matchesField_enum h
        intro tk htk
        rw [valueTokens, List.mem_singleton] at htk
        subst htk
        exact hwf
      | int i => simp [matchesField] at h
      | bool b => simp [matchesField] at h
    | list vs => simp [matchesField] at h

lemma valueTokens_ne_nil {cs : CastSpec} {v : PValue} (h : matchesField cs v = true) :
    valueTokens v ≠ [] := by
  cases v with
  | prim p => simp [valueTokens]
  | list vs =>
    cases cs with
    | vector t n =>
      obtain ⟨_, hne, _⟩ := matchesField_vector h
      rw [valueTokens]
      simp [hne]
    | prim t => simp [matchesField] at h
    | enum cls => simp [matchesField] at h

lemma cast_tokens_map {t : PrimT} : ∀ (vs : List Prim),
    vs.all (matchesPrim t) = true →
    cast_tokens t (vs.map pyStr) = Except.ok vs := by
  intro vs
  induction vs with
  | nil => intro _; rfl
  | cons p rest ih =>
    intro h
    rw [List.all_cons, Bool.and_eq_true] at h
    rw [List.map_cons]
    simp only [cast_tokens, castPrim_pyStr h.1, ih h.2]

/-- On a matching value's token sequence, the casting closure consumes
exactly the value's tokens and returns the value. -/
lemma applyCast_field {cs : CastSpec} {v : PValue} (rest : List Tok)
    (h : matchesField cs v = true) :
    applyCast cs (valueTokens v ++ rest) = (Except.ok v, rest) := by
  cases cs with
  | prim t =>
    cases v with
    | prim p =>
      rw [valueTokens]
      simp only [applyCast, extract_entry, left_pop, List.cons_append,
        List.take_succ_cons, List.take_zero, List.drop_succ_cons, List.drop_zero,
        List.nil_append]
      rw [castPrim_to_dat (t := t) h]
    | list vs => simp [matchesField] at h
  | vector t n =>
    cases v with
    | list vs =>
      obtain ⟨hlen, _, hall⟩ := matchesField_vector h
      rw [valueTokens]
      have hmlen : (vs.map pyStr).length = n := by
        rw [List.length_map]; exact hlen
      simp only [applyCast, extract_vector, left_pop,
        List.take_left' hmlen, List.drop_left' hmlen, cast_tokens_map vs hall]
    | prim p => simp [matchesField] at h
  | enum cls =>
    cases v with
    | prim p =>
      cases p with
      | str e =>
        obtain ⟨hmem, _⟩ := matchesField_enum h
        rw [valueTokens]
        have htd : to_dat_string (PValue.prim (Prim.str e)) = e := rfl
        rw [htd]
        simp only [applyCast, extract_enum, left_pop, List.cons_append,
          List.take_succ_cons, List.take_zero, List.drop_succ_cons, List.drop_zero,
          List.nil_append]
        rw [if_pos hmem]
      | int i => simp [matchesField] at h
      | bool b => simp [matchesField] at h
    | list vs => simp [matchesField] at h

/-! #### Tokenising an encoded line -/

lemma takeWhile_append_all {p : Char → Bool} : ∀ (t r : List Char),
    t.all p = true → (t ++ r).takeWhile p = t ++ r.takeWhile p := by
  intro t
  induction t with
  | nil => intro r _; rfl
  | cons c t2 ih =>
    intro r h
    rw [List.all_cons, Bool.and_eq_true] at h
    rw [List.cons_append, List.takeWhile_cons_of_pos h.1, ih r h.2]
    rfl

lemma dropWhile_append_all {p : Char → Bool} : ∀ (t r : List Char),
    t.all p = true → (t ++ r).dropWhile p = r.dropWhile p := by
  intro t
  induction t with
  | nil => intro r _; rfl
  | cons c t2 ih =>
    intro r h
    rw [List.all_cons, Bool.and_eq_true] at h
    rw [List.cons_append, List.dropWhile_cons_of_pos h.1, ih r h.2]

lemma wfTok_parts {t : Tok} (h : wfTok t = true) :
    t ≠ [] ∧ t.all (fun c => !wsChar c) = true := by
  rw [wfTok, Bool.and_eq_true] at h
  refine ⟨?_, h.2⟩
  intro hnil
  rw [hnil] at h
  simp at h

lemma splitWs_nil : splitWs [] = [] := rfl

lemma splitWsF_nil : ∀ f : Nat, splitWsF f [] = [] := by
  intro f
  cases f <;> rfl

lemma splitWs_single (t : Tok) (h : wfTok t = true) : splitWs t = [t] := by
  obtain ⟨hne, hall⟩ := wfTok_parts h
  cases t with
  | nil => exact absurd rfl hne
  | cons c t2 =>
    rw [List.all_cons, Bool.and_eq_true] at hall
    have hc : ¬ wsChar c = true := by
      have h1 := hall.1
      simp only [Bool.not_eq_true'] at h1
      rw [h1]
      simp
    have ht : List.takeWhile (fun d => !wsChar d) t2 = t2 := by
      have h2 := takeWhile_append_all t2 [] hall.2
      simpa using h2
    have hd : List.dropWhile (fun d => !wsChar d) t2 = [] := by
      have h2 := dropWhile_append_all t2 [] hall.2
      simpa using h2
    show splitWsF (c :: t2).length (c :: t2) = _
    simp only [List.length_cons, splitWsF]
    rw [if_neg hc, ht, hd, splitWsF_nil]

lemma splitWs_token_sp (t rest : List Char) (h : wfTok t = true) :
    splitWs (t ++ ' ' :: rest) = t :: splitWs rest := by
  obtain ⟨hne, hall⟩ := wfTok_parts h
  cases t with
  | nil => exact absurd rfl hne
  | cons c t2 =>
    rw [List.all_cons, Bool.and_eq_true] at hall
    have hc : ¬ wsChar c = true := by
      have h1 := hall.1
      simp only [Bool.not_eq_true'] at h1
      rw [h1]
      simp
    have ht : List.takeWhile (fun d => !wsChar d) (t2 ++ ' ' :: rest) = t2 := by
      rw [takeWhile_append_all t2 (' ' :: rest) hall.2,
        List.takeWhile_cons_of_neg (by decide), List.append_nil]
    have hd : List.dropWhile (fun d => !wsChar d) (t2 ++ ' ' :: rest) = ' ' :: rest := by
      rw [dropWhile_append_all t2 (' ' :: rest) hall.2,
        List.dropWhile_cons_of_neg (by decide)]
    show splitWsF ((c :: t2) ++ ' ' :: rest).length ((c :: t2) ++ ' ' :: rest) = _
    have hlen : ((c :: t2) ++ ' ' :: rest).length =
        (t2.length + rest.length + 1) + 1 := by
      simp
      omega
    rw [hlen, List.cons_append]
    simp only [splitWsF]
    rw [if_neg hc, ht, hd]
    have hstep : splitWsF (t2.length + rest.length + 1) (' ' :: rest) =
        splitWsF (t2.length + rest.length) rest := by
      have e1 : t2.length + rest.length + 1 = (t2.length + rest.length) + 1 := rfl
      rw [e1]
      simp only [splitWsF]
      rw [if_pos (by decide : wsChar ' ' = true)]
    rw [hstep, splitWsF_fuel (t2.length + rest.length) rest.length rest
      (by omega) (Nat.le_refl _)]
    rfl

lemma splitWs_joinSp : ∀ (ts : List Tok), (∀ t ∈ ts, wfTok t = true) →
    splitWs (joinSp ts) = ts := by
  intro ts
  induction ts with
  | nil => intro _; exact splitWs_nil
  | cons t ts2 ih =>
    intro h
    cases ts2 with
    | nil => exact splitWs_single t (h t (List.mem_singleton.mpr rfl))
    | cons u ts3 =>
      have hjoin : joinSp (t :: u :: ts3) = t ++ ' ' :: joinSp (u :: ts3) := rfl
      rw [hjoin, splitWs_token_sp _ _ (h t (List.mem_cons_self t _)),
        ih (fun x hx => h x (List.mem_cons_of_mem t hx))]

lemma joinSp_append : ∀ (a b : List Tok), a ≠ [] → b ≠ [] →
    joinSp (a ++ b) = joinSp a ++ ' ' :: joinSp b := by
  intro a
  induction a with
  | nil => intro b h _; exact absurd rfl h
  | cons x a2 ih =>
    intro b _ hb
    cases a2 with
    | nil =>
      cases b with
      | nil => exact absurd rfl hb
      | cons y b2 => rfl
    | cons x2 a3 =>
      have e2 : joinSp ((x :: x2 :: a3) ++ b) = x ++ ' ' :: joinSp ((x2 :: a3) ++ b) := rfl
      have e3 : joinSp (x :: x2 :: a3) = x ++ ' ' :: joinSp (x2 :: a3) := rfl
      rw [e2, e3, ih b (by simp) hb]
      simp [List.append_assoc]

lemma to_dat_joinSp : ∀ v : PValue, to_dat_string v = joinSp (valueTokens v) := by
  intro v
  cases v with
  | prim p => rfl
  | list vs => rfl

lemma encode_field_eq {k : Tok} {v : PValue} (h : valueTokens v ≠ []) :
    encode_field k v = joinSp (k :: valueTokens v) := by
  cases hv : valueTokens v with
  | nil => exact absurd hv h
  | cons u us =>
    have e1 : joinSp (k :: u :: us) = k ++ ' ' :: joinSp (u :: us) := rfl
    rw [e1, encode_field, to_dat_joinSp, hv]

lemma fieldOk_parts {table : Table} {k : Tok} {v : PValue}
    (h : fieldOk table (k, v) = true) :
    wfTok k = true ∧ ∃ cs, dictLookup table k = some cs ∧ matchesField cs v = true := by
  rw [fieldOk, Bool.and_eq_true] at h
  refine ⟨h.1, ?_⟩
  have h2 := h.2
  cases hl : dictLookup table k with
  | none => rw [hl] at h2; simp at h2
  | some cs =>
    rw [hl] at h2
    exact ⟨cs, rfl, h2⟩

lemma encodeLine_eq_recordTokens : ∀ (record : Record),
    (∀ kv ∈ record, valueTokens kv.2 ≠ []) →
    encodeLine record = joinSp (recordTokens record) := by
  intro record
  induction record with
  | nil => intro _; rfl
  | cons kv rest ih =>
    intro h
    obtain ⟨k, v⟩ := kv
    have hvne : valueTokens v ≠ [] := h (k, v) (List.mem_cons_self _ _)
    cases rest with
    | nil =>
      have e1 : encodeLine [(k, v)] = encode_field k v := rfl
      rw [e1, encode_field_eq hvne]
      have e2 : recordTokens [(k, v)] = k :: valueTokens v ++ [] := rfl
      rw [e2, List.append_nil]
    | cons kv2 rest2 =>
      have e1 : encodeLine ((k, v) :: kv2 :: rest2) =
          encode_field k v ++ ' ' :: encodeLine (kv2 :: rest2) := rfl
      rw [e1, ih (fun x hx => h x (List.mem_cons_of_mem _ hx)), encode_field_eq hvne]
      have hbne : recordTokens (kv2 :: rest2) ≠ [] := by
        obtain ⟨k2, v2⟩ := kv2
        simp [recordTokens]
      rw [← joinSp_append (k :: valueTokens v) _ (by simp) hbne]
      obtain ⟨k2, v2⟩ := kv2
      have e3 : (k :: valueTokens v) ++ recordTokens ((k2, v2) :: rest2) =
          recordTokens ((k, v) :: (k2, v2) :: rest2) := by
        simp [recordTokens]
      rw [e3]

lemma recordTokens_wf {table : Table} : ∀ (record : Record),
    (∀ kv ∈ record, fieldOk table kv = true) →
    ∀ tk ∈ recordTokens record, wfTok tk = true := by
  intro record
  induction record with
  | nil => intro _ tk htk; simp [recordTokens] at htk
  | cons kv rest ih =>
    intro h tk htk
    obtain ⟨k, v⟩ := kv
    obtain ⟨hk, cs, _, hm⟩ := fieldOk_parts (h (k, v) (List.mem_cons_self _ _))
    rw [recordTokens] at htk
    rcases List.mem_cons.mp htk with rfl | htk2
    · exact hk
    · rcases List.mem_append.mp htk2 with htk3 | htk3
      · exact valueTokens_wf hm tk htk3
      · exact ih (fun x hx => h x (List.mem_cons_of_mem _ hx)) tk htk3

/-! #### Dict helpers -/

lemma dictUpdate_append {a : Type} : ∀ (acc : List (Tok × a)) (k : Tok) (v : a),
    dictLookup acc k = none → dictUpdate acc k v = acc ++ [(k, v)] := by
  intro acc
  induction acc with
  | nil => intro k v _; rfl
  | cons kw rest ih =>
    intro k v h
    obtain ⟨k2, w⟩ := kw
    rw [dictLookup] at h
    by_cases hk : k = k2
    · rw [if_pos hk] at h; simp at h
    · rw [if_neg hk] at h
      rw [dictUpdate, if_neg hk, ih k v h, List.cons_append]

lemma dictLookup_append_none {a : Type} : ∀ (acc : List (Tok × a)) (k2 : Tok)
    (v : a) (k : Tok), dictLookup acc k = none → ¬ k = k2 →
    dictLookup (acc ++ [(k2, v)]) k = none := by
  intro acc
  induction acc with
  | nil =>
    intro k2 v k _ hne
    rw [List.nil_append, dictLookup, if_neg hne]
    rfl
  | cons kw rest ih =>
    intro k2 v k h hne
    obtain ⟨k3, w⟩ := kw
    rw [dictLookup] at h
    by_cases hk : k = k3
    · rw [if_pos hk] at h; simp at h
    · rw [if_neg hk] at h
      rw [List.cons_append, dictLookup, if_neg hk]
      exact ih k2 v k h hne

/-! #### Decoding an encoded record -/

lemma read_loop_nil (table : Table) (acc : Record) : ∀ (fuel : Nat),
    inline_dat_read_loop table fuel [] acc = (Except.ok acc, []) := by
  intro fuel
  cases fuel <;> rfl

lemma read_loop_encoded (table : Table) : ∀ (record : Record) (acc : Record)
    (fuel : Nat),
    (∀ kv ∈ record, fieldOk table kv = true) →
    (record.map Prod.fst).Nodup →
    (∀ kv ∈ record, dictLookup acc kv.1 = none) →
    (recordTokens record).length ≤ fuel →
    inline_dat_read_loop table fuel (recordTokens record) acc =
      (Except.ok (acc ++ record), []) := by
  intro record
  induction record with
  | nil =>
    intro acc fuel _ _ _ _
    rw [recordTokens, read_loop_nil, List.append_nil]
  | cons kv rest ih =>
    intro acc fuel hfo hnd hacc hfuel
    obtain ⟨k, v⟩ := kv
    obtain ⟨hk, cs, hlook, hm⟩ := fieldOk_parts (hfo (k, v) (List.mem_cons_self _ _))
    rw [recordTokens] at hfuel ⊢
    match fuel, hfuel with
    | f+1, hfuel =>
      simp only [inline_dat_read_loop]
      rw [hlook]
      show (match applyCast cs (valueTokens v ++ recordTokens rest) with
        | (Except.error e, rest2) => (Except.error e, rest2)
        | (Except.ok v2, rest2) =>
          inline_dat_read_loop table f rest2 (dictUpdate acc k v2)) = _
      rw [applyCast_field (recordTokens rest) hm]
      show inline_dat_read_loop table f (recordTokens rest) (dictUpdate acc k v) = _
      rw [dictUpdate_append acc k v (hacc (k, v) (List.mem_cons_self _ _))]
      have hnd2 : (k :: rest.map Prod.fst).Nodup := by
        rw [List.map_cons] at hnd
        exact hnd
      rw [List.nodup_cons] at hnd2
      rw [ih (acc ++ [(k, v)]) f (fun x hx => hfo x (List.mem_cons_of_mem _ hx))
        hnd2.2
        (fun x hx => dictLookup_append_none acc k v x.1
          (hacc x (List.mem_cons_of_mem _ hx))
          (by intro hxk
              refine hnd2.1 ?_
              rw [← hxk]
              exact List.mem_map_of_mem Prod.fst hx))
        (by simp at hfuel ⊢; omega)]
      simp [List.append_assoc]

/-- C1: decoding the whitespace-split tokens of an encoded record with
`inline_dat_read` returns the record (and consumes the whole stream):
decode after encode is the identity on schema-conforming records. -/
theorem inline_dat_roundtrip (table : Table) (record : Record)
    (h : Matches table record) :
    inline_dat_read (splitWs (encodeLine record)) table =
      (Except.ok record, []) := by
  obtain ⟨hnodup, hall⟩ := h
  have hfields : ∀ kv ∈ record, fieldOk table kv = true := List.all_eq_true.mp hall
  have hvne : ∀ kv ∈ record, valueTokens kv.2 ≠ [] := by
    intro kv hkv
    obtain ⟨k, v⟩ := kv
    obtain ⟨_, cs, _, hm⟩ := fieldOk_parts (hfields (k, v) hkv)
    exact valueTokens_ne_nil hm
  have htok : splitWs (encodeLine record) = recordTokens record := by
    rw [encodeLine_eq_recordTokens record hvne]
    exact splitWs_joinSp _ (recordTokens_wf record hfields)
  rw [htok, inline_dat_read]
  have hrun := read_loop_encoded table record [] (recordTokens record).length
    hfields hnodup (fun kv _ => rfl) (Nat.le_refl _)
  rw [List.nil_append] at hrun
  exact hrun

/-- Witness for C1: the section 8 scenario, a 3-vector of ints plus an enum. -/
theorem inline_dat_roundtrip_witness :
    Matches [(['I'], CastSpec.vector PrimT.int 3),
        (['P'], CastSpec.enum [['a','u','t','o'], ['s','t','r']])]
      [(['I'], PValue.list [Prim.int 10, Prim.int 12, Prim.int 13]),
        (['P'], PValue.prim (Prim.str ['a','u','t','o']))] ∧
    inline_dat_read (splitWs (encodeLine
        [(['I'], PValue.list [Prim.int 10, Prim.int 12, Prim.int 13]),
          (['P'], PValue.prim (Prim.str ['a','u','t','o']))]))
      [(['I'], CastSpec.vector PrimT.int 3),
        (['P'], CastSpec.enum [['a','u','t','o'], ['s','t','r']])] =
      (Except.ok [(['I'], PValue.list [Prim.int 10, Prim.int 12, Prim.int 13]),
        (['P'], PValue.prim (Prim.str ['a','u','t','o']))], []) :=
  ⟨by decide, inline_dat_roundtrip _ _ (by decide)⟩

/-- C7: a keyword token absent from the casting table raises a `KeyError`
carrying that keyword (the tokens before it already consumed); no record is
returned. -/
theorem unknown_keyword_raises (table : Table) (k : Tok) (rest : List Tok)
    (h : dictLookup table k = none) :
    inline_dat_read (k :: rest) table =
      (Except.error (DErr.keyError k), rest) := by
  rw [inline_dat_read]
  show inline_dat_read_loop table (rest.length + 1) (k :: rest) [] = _
  simp only [inline_dat_read_loop]
  rw [h]

/-- Witness for C7: the line `FOO 1` against a table without `FOO`. -/
theorem unknown_keyword_raises_witness :
    dictLookup [(['B','A','R'], CastSpec.prim PrimT.int)] ['F','O','O'] = none ∧
    inline_dat_read [['F','O','O'], ['1']]
        [(['B','A','R'], CastSpec.prim PrimT.int)] =
      (Except.error (DErr.keyError ['F','O','O']), [['1']]) :=
  ⟨by decide, unknown_keyword_raises _ ['F','O','O'] [['1']] (by decide)⟩

/-! #### Truncated streams (C6) and destructive consumption (C9) -/

/-- C6 counterexample: a fixed-size vector decoder handed fewer tokens than
its declared arity does not raise; `_left_pop`'s slice silently returns the
shorter list and a 2-element vector is bound for a declared size of 3. -/
theorem vector_truncation_silent_counterexample :
    inline_dat_read [['A'], ['1'], ['2']] [(['A'], CastSpec.vector PrimT.int 3)] =
      (Except.ok [(['A'], PValue.list [Prim.int 1, Prim.int 2])], []) := by
  decide

/-- C6 amended: when the stream is exhausted below a decoder's declared
arity, scalar and enum decoders do raise (an IndexError from popping an
empty list), but a fixed-size vector decoder silently binds a vector built
from the fewer-than-N remaining tokens. -/
theorem truncated_stream_behaviour (table : Table) (k : Tok) :
    (∀ t, dictLookup table k = some (CastSpec.prim t) →
      inline_dat_read [k] table = (Except.error DErr.indexError, [])) ∧
    (∀ choices, dictLookup table k = some (CastSpec.enum choices) →
      inline_dat_read [k] table = (Except.error DErr.indexError, [])) ∧
    (∀ t n toks vs, dictLookup table k = some (CastSpec.vector t n) →
      toks.length < n → cast_tokens t toks = Except.ok vs →
      inline_dat_read (k :: toks) table =
        (Except.ok [(k, PValue.list vs)], [])) := by
  refine ⟨?_, ?_, ?_⟩
  · intro t hlook
    rw [inline_dat_read]
    show inline_dat_read_loop table 1 [k] [] = _
    simp only [inline_dat_read_loop]
    rw [hlook]
    rfl
  · intro choices hlook
    rw [inline_dat_read]
    show inline_dat_read_loop table 1 [k] [] = _
    simp only [inline_dat_read_loop]
    rw [hlook]
    rfl
  · intro t n toks vs hlook hshort hcast
    rw [inline_dat_read]
    show inline_dat_read_loop table (toks.length + 1) (k :: toks) [] = _
    simp only [inline_dat_read_loop]
    rw [hlook]
    show (match applyCast (CastSpec.vector t n) toks with
      | (Except.error e, rest2) => (Except.error e, rest2)
      | (Except.ok v2, rest2) =>
        inline_dat_read_loop table toks.length rest2 (dictUpdate [] k v2)) = _
    have happ : applyCast (CastSpec.vector t n) toks =
        (Except.ok (PValue.list vs), []) := by
      show extract_vector toks t n = _
      rw [extract_vector]
      show (match cast_tokens t (toks.take n) with
        | Except.error err => (Except.error err, toks.drop n)
        | Except.ok vs2 => (Except.ok (PValue.list vs2), toks.drop n)) = _
      rw [List.take_of_length_le (by omega), List.drop_eq_nil_of_le (by omega),
        hcast]
    rw [happ]
    show inline_dat_read_loop table toks.length [] (dictUpdate [] k (PValue.list vs)) = _
    rw [read_loop_nil]
    rfl

/-- Witness for the amended C6: a 3-vector of ints given 2 tokens binds a
2-vector; a scalar int given no token raises. -/
theorem truncated_stream_behaviour_witness :
    dictLookup [(['A'], CastSpec.vector PrimT.int 3)] ['A'] =
      some (CastSpec.vector PrimT.int 3) ∧
    ([['1'], ['2']] : List Tok).length < 3 ∧
    cast_tokens PrimT.int [['1'], ['2']] = Except.ok [Prim.int 1, Prim.int 2] ∧
    inline_dat_read [['A'], ['1'], ['2']] [(['A'], CastSpec.vector PrimT.int 3)] =
      (Except.ok [(['A'], PValue.list [Prim.int 1, Prim.int 2])], []) ∧
    dictLookup [(['B'], CastSpec.prim PrimT.int)] ['B'] =
      some (CastSpec.prim PrimT.int) ∧
    inline_dat_read [['B']] [(['B'], CastSpec.prim PrimT.int)] =
      (Except.error DErr.indexError, []) :=
  ⟨by decide, by decide, by decide,
    (truncated_stream_behaviour [(['A'], CastSpec.vector PrimT.int 3)] ['A']).2.2
      PrimT.int 3 [['1'], ['2']] [Prim.int 1, Prim.int 2] (by decide) (by decide)
      (by decide),
    by decide,
    (truncated_stream_behaviour [(['B'], CastSpec.prim PrimT.int)] ['B']).1
      PrimT.int (by decide)⟩

lemma extract_entry_snd (l : List Tok) (t : PrimT) :
    (extract_entry l t).2 = l.drop 1 := by
  cases l with
  | nil => rfl
  | cons e rest => cases hc : castPrim t e <;> simp [extract_entry, left_pop, hc]

lemma extract_vector_snd (l : List Tok) (t : PrimT) (n : Nat) :
    (extract_vector l t n).2 = l.drop n := by
  cases hc : cast_tokens t (l.take n) <;> simp [extract_vector, left_pop, hc]

lemma extract_enum_snd (l : List Tok) (choices : List Tok) :
    (extract_enum l choices).2 = l.drop 1 := by
  cases l with
  | nil => rfl
  | cons e rest =>
    by_cases he : e ∈ choices <;> simp [extract_enum, left_pop, he]

/-- Every casting closure consumes tokens only from the front: the remaining
list is a drop of its input. -/
lemma applyCast_snd_drop (cs : CastSpec) (l : List Tok) :
    ∃ m, (applyCast cs l).2 = l.drop m := by
  cases cs with
  | prim t => exact ⟨1, extract_entry_snd l t⟩
  | vector t n => exact ⟨n, extract_vector_snd l t n⟩
  | enum choices => exact ⟨1, extract_enum_snd l choices⟩

lemma read_loop_frame (table : Table) : ∀ (fuel : Nat) (l : List Tok)
    (acc : Record), l.length ≤ fuel →
    (∀ d rest, inline_dat_read_loop table fuel l acc = (Except.ok d, rest) →
      rest = []) ∧
    (∀ e rest, inline_dat_read_loop table fuel l acc = (Except.error e, rest) →
      ∃ m, 1 ≤ m ∧ rest = l.drop m) := by
  intro fuel
  induction fuel with
  | zero =>
    intro l acc hl
    have hnil : l = [] := by
      cases l with
      | nil => rfl
      | cons x xs => simp at hl
    subst hnil
    rw [read_loop_nil]
    constructor
    · intro d rest h
      exact (congrArg Prod.snd h).symm
    · intro e rest h
      exact absurd (congrArg Prod.fst h) (by simp)
  | succ f ih =>
    intro l acc hl
    cases l with
    | nil =>
      rw [read_loop_nil]
      constructor
      · intro d rest h
        exact (congrArg Prod.snd h).symm
      · intro e rest h
        exact absurd (congrArg Prod.fst h) (by simp)
    | cons key rest0 =>
      cases hlook : dictLookup table key with
      | none =>
        constructor
        · intro d rest h
          simp only [inline_dat_read_loop] at h
          rw [hlook] at h
          replace h : (Except.error (DErr.keyError key), rest0) =
            (Except.ok d, rest) := h
          exact absurd (congrArg Prod.fst h) (by simp)
        · intro e rest h
          simp only [inline_dat_read_loop] at h
          rw [hlook] at h
          replace h : (Except.error (DErr.keyError key), rest0) =
            (Except.error e, rest) := h
          have h2 : rest0 = rest := congrArg Prod.snd h
          refine ⟨1, Nat.le_refl 1, ?_⟩
          rw [← h2]
          rfl
      | some cs =>
        obtain ⟨m0, hm0⟩ := applyCast_snd_drop cs rest0
        cases happ : applyCast cs rest0 with
        | mk res rest2 =>
          rw [happ] at hm0
          replace hm0 : rest2 = List.drop m0 rest0 := hm0
          cases res with
          | error e0 =>
            constructor
            · intro d rest h
              simp only [inline_dat_read_loop] at h
              rw [hlook] at h
              replace h : (match applyCast cs rest0 with
                | (Except.error e2, r2) => (Except.error e2, r2)
                | (Except.ok v2, r2) =>
                  inline_dat_read_loop table f r2 (dictUpdate acc key v2)) =
                (Except.ok d, rest) := h
              rw [happ] at h
              replace h : (Except.error e0, rest2) = (Except.ok d, rest) := h
              exact absurd (congrArg Prod.fst h) (by simp)
            · intro e rest h
              simp only [inline_dat_read_loop] at h
              rw [hlook] at h
              replace h : (match applyCast cs rest0 with
                | (Except.error e2, r2) => (Except.error e2, r2)
                | (Except.ok v2, r2) =>
                  inline_dat_read_loop table f r2 (dictUpdate acc key v2)) =
                (Except.error e, rest) := h
              rw [happ] at h
              replace h : (Except.error e0, rest2) = (Except.error e, rest) := h
              have h2 : rest2 = rest := congrArg Prod.snd h
              refine ⟨m0 + 1, by omega, ?_⟩
              rw [← h2]
              show rest2 = List.drop (m0 + 1) (key :: rest0)
              rw [List.drop_succ_cons]
              exact hm0
          | ok v0 =>
            have hlen2 : rest2.length ≤ f := by
              have hld := List.length_drop m0 rest0
              rw [hm0]
              simp only [List.length_cons] at hl
              omega
            obtain ⟨ihOk, ihErr⟩ := ih rest2 (dictUpdate acc key v0) hlen2
            constructor
            · intro d rest h
              simp only [inline_dat_read_loop] at h
              rw [hlook] at h
              replace h : (match applyCast cs rest0 with
                | (Except.error e2, r2) => (Except.error e2, r2)
                | (Except.ok v2, r2) =>
                  inline_dat_read_loop table f r2 (dictUpdate acc key v2)) =
                (Except.ok d, rest) := h
              rw [happ] at h
              replace h : inline_dat_read_loop table f rest2
                  (dictUpdate acc key v0) = (Except.ok d, rest) := h
              exact ihOk d rest h
            · intro e rest h
              simp only [inline_dat_read_loop] at h
              rw [hlook] at h
              replace h : (match applyCast cs rest0 with
                | (Except.error e2, r2) => (Except.error e2, r2)
                | (Except.ok v2, r2) =>
                  inline_dat_read_loop table f r2 (dictUpdate acc key v2)) =
                (Except.error e, rest) := h
              rw [happ] at h
              replace h : inline_dat_read_loop table f rest2
                  (dictUpdate acc key v0) = (Except.error e, rest) := h
              obtain ⟨m, hm1, hm2⟩ := ihErr e rest h
              refine ⟨m + m0 + 1, by omega, ?_⟩
              rw [hm2, hm0, List.drop_drop, List.drop_succ_cons, Nat.add_comm m0 m]

/-- C9: `inline_dat_read` consumes its token list destructively: on success
the caller's list ends empty; when an error is raised the list holds the
still-unread suffix (at least the keyword was removed, nothing restored). -/
theorem read_consumes_destructively (table : Table) (l : List Tok) :
    (∀ d rest, inline_dat_read l table = (Except.ok d, rest) → rest = []) ∧
    (∀ e rest, inline_dat_read l table = (Except.error e, rest) →
      ∃ m, 1 ≤ m ∧ rest = l.drop m) :=
  read_loop_frame table l.length l [] (Nat.le_refl _)

/-- Witness for C9: an unknown keyword aborts decoding with the keyword
already consumed. -/
theorem read_consumes_destructively_witness :
    inline_dat_read [['F'], ['1'], ['2']] [] =
      (Except.error (DErr.keyError ['F']), [['1'], ['2']]) ∧
    ∃ m, 1 ≤ m ∧ ([['1'], ['2']] : List Tok) =
      List.drop m [['F'], ['1'], ['2']] :=
  ⟨by decide,
    (read_consumes_destructively [] [['F'], ['1'], ['2']]).2
      (DErr.keyError ['F']) [['1'], ['2']] (by decide)⟩

/-! ### Part C: the knot-vector block reader (`fourcipp/legacy_io/knotvectors.py`)

`knotvectors.py` builds its casting tables as
`partial(_extract_entry, extractor=int)` (and `partial(_extract_vector,
extractor=float, ...)`), but the functions imported from
`fourcipp.legacy_io.inline_dat` declare the parameter `entry_type`, so every
call to those closures raises
`TypeError: got an unexpected keyword argument 'extractor'`
(modelled below as `KErr.typeErrorKwarg`).  Only the `TYPE` entry, built on
`_extract_enum` with the correct keyword `choices=`, is callable. -/

/-- The dicts reachable while reading one knot-vector block
(`knots_data`): `NUMKNOTS`, `DEGREE`, `TYPE`, `knots`.  Float knot values
are kept symbolically as their source tokens (no claim touches them). -/
structure KnotsData where
  numknots : Option Int
  degree : Option Int
  ktype : Option Tok
  knots : Option (List Tok)
deriving DecidableEq

/-- The per-patch dict (`patch_data`): `knot_vectors`, `NURBS_DIMENSION`,
`ID`. -/
structure PatchData where
  knot_vectors : Option (List KnotsData)
  nurbs_dimension : Option Int
  id : Option Int
deriving DecidableEq

def emptyPatch : PatchData := PatchData.mk none none none

def emptyKnots : KnotsData := KnotsData.mk none none none none

/-- Errors of `read_knotvectors`: the `TypeError` from the mis-named keyword
argument, the `KeyError` from `knots_data.pop("NUMKNOTS")`, the `KeyError`
from `patch_data["knot_vectors"]` on `END` without `BEGIN`, the two
`ValueError`s of the function (`"Could not read line"` and
`"Expected ... knot vectors, got ..."`, whose expected count is an int or
`None`), a failed `float(token)`, an invalid `TYPE` choice, and the
artificial out-of-fuel outcome. -/
inductive KErr where
  | typeErrorKwarg (kwarg : Tok) : KErr
  | keyErrorNumknots : KErr
  | keyErrorKnotVectors : KErr
  | couldNotRead (line : List Char) : KErr
  | dimensionMismatch (expected : Option Int) (got : Nat) : KErr
  | valueErrorFloat (tok : Tok) : KErr
  | unknownEntryType (entry : Tok) : KErr
  | fuelImpossible : KErr
deriving DecidableEq

def extractorKw : Tok := ['e','x','t','r','a','c','t','o','r']

def kwBEGIN : Tok := ['B','E','G','I','N']

def kwEND : Tok := ['E','N','D']

def kwID : Tok := ['I','D']

def kwNURBS_DIMENSION : Tok :=
  ['N','U','R','B','S','_','D','I','M','E','N','S','I','O','N']

def kwNUMKNOTS : Tok := ['N','U','M','K','N','O','T','S']

def kwDEGREE : Tok := ['D','E','G','R','E','E']

def kwTYPE : Tok := ['T','Y','P','E']

def kwNURBSPATCH : Tok := ['N','U','R','B','S','P','A','T','C','H']

def kwInterpolated : Tok := ['I','n','t','e','r','p','o','l','a','t','e','d']

def kwPeriodic : Tok := ['P','e','r','i','o','d','i','c']

/-- Simplified model of the `float(token)` syntax check (optional sign,
digits with at most one decimal point; exponent forms are omitted — this
branch is unreachable in every theorem below because the `NUMKNOTS` pop
always fails first on this code). -/
def pyFloatBody (l : List Char) : Bool :=
  match l.dropWhile isDig with
  | [] => !(l.takeWhile isDig).isEmpty
  | c :: frac =>
    if c = '.' then
      (!(l.takeWhile isDig).isEmpty || !frac.isEmpty) && frac.all isDig
    else false

def isPyFloat (t : Tok) : Bool :=
  match t with
  | [] => false
  | c :: rest =>
    if c = '-' then pyFloatBody rest
    else if c = '+' then pyFloatBody rest
    else pyFloatBody t

/-- The `while list_of_lines:` loop of `read_knotvectors`.  One line is
consumed per iteration, so fuel starting at the line count never runs out.
Key-value lines dispatch on the keyword (`BEGIN`, `END`, the two casting
tables); value-only lines read a knot vector, whose `NUMKNOTS` pop always
fails because the `NUMKNOTS` cast itself always raises the keyword-argument
`TypeError`. -/
def read_knotvectors_loop : Nat → List (List Char) → PatchData → KnotsData →
    Option Int → List PatchData → Except KErr (List PatchData)
  | _, [], _, _, _, patches => Except.ok patches
  | 0, _ :: _, _, _, _, _ => Except.error KErr.fuelImpossible
  | fuel+1, line :: rest, patch_data, knots_data, latest, patches =>
    if line.all wsChar then
      read_knotvectors_loop fuel rest patch_data knots_data latest patches
    else
      match splitWs line with
      | [key, val] =>
        if key = kwBEGIN then
          read_knotvectors_loop fuel rest
            (PatchData.mk (some []) patch_data.nurbs_dimension patch_data.id)
            knots_data latest patches
        else if key = kwEND then
          match
            (match patch_data.nurbs_dimension with
             | some d => some d
             | none => latest : Option Int) with
          | latest2 =>
            match patch_data.knot_vectors with
            | none => Except.error KErr.keyErrorKnotVectors
            | some kv =>
              match latest2 with
              | none => Except.error (KErr.dimensionMismatch none kv.length)
              | some d =>
                if (kv.length : Int) = d then
                  read_knotvectors_loop fuel rest emptyPatch knots_data latest2
                    (patches ++ [PatchData.mk (some kv) none patch_data.id])
                else
                  Except.error (KErr.dimensionMismatch (some d) kv.length)
        else if key = kwID ∨ key = kwNURBS_DIMENSION then
          Except.error (KErr.typeErrorKwarg extractorKw)
        else if key = kwNUMKNOTS ∨ key = kwDEGREE then
          Except.error (KErr.typeErrorKwarg extractorKw)
        else if key = kwTYPE then
          if val = kwInterpolated ∨ val = kwPeriodic then
            read_knotvectors_loop fuel rest patch_data
              (KnotsData.mk knots_data.numknots knots_data.degree (some val)
                knots_data.knots)
              latest patches
          else Except.error (KErr.unknownEntryType val)
        else Except.error (KErr.couldNotRead line)
      | [tok] =>
        if isPyFloat tok then
          match knots_data.numknots with
          | none => Except.error KErr.keyErrorNumknots
          | some _ => Except.error (KErr.typeErrorKwarg extractorKw)
        else Except.error (KErr.valueErrorFloat tok)
      | _ => Except.error (KErr.couldNotRead line)

/-- `read_knotvectors(list_of_lines)`. -/
def read_knotvectors (list_of_lines : List (List Char)) :
    Except KErr (List PatchData) :=
  read_knotvectors_loop list_of_lines.length list_of_lines emptyPatch
    emptyKnots none []

/-- The dimension-mismatch scenario of the repository's own test
`test_wrong_knotvectors_dimension_mismatch`: dimension 2 declared, one
knot-vector block supplied. -/
def c8_section : List (List Char) :=
  [kwNURBS_DIMENSION ++ [' ', '2'],
   kwBEGIN ++ ' ' :: kwNURBSPATCH,
   kwID ++ [' ', '1'],
   kwNUMKNOTS ++ [' ', '7'],
   kwDEGREE ++ [' ', '2'],
   kwTYPE ++ ' ' :: kwInterpolated,
   ['0','.','0'], ['0','.','0'], ['0','.','0'], ['0','.','5'],
   ['1','.','0'], ['1','.','0'], ['1','.','0'],
   kwEND ++ ' ' :: kwNURBSPATCH]

/-- C8: on the dimension-mismatch scenario the code never reaches the END
check: casting the very first `NURBS_DIMENSION` line raises the
keyword-argument `TypeError`, not the claimed
`Expected 2 knot vectors, got 1` ValueError. -/
theorem read_knotvectors_dimension_scenario_crashes :
    read_knotvectors c8_section =
      Except.error (KErr.typeErrorKwarg extractorKw) := by
  decide

/-- Two patches, the second omitting its `NURBS_DIMENSION` line — the input
of the remembered-dimension claim. -/
def c10_section : List (List Char) :=
  [kwNURBS_DIMENSION ++ [' ', '1'],
   kwBEGIN ++ ' ' :: kwNURBSPATCH,
   kwID ++ [' ', '1'],
   kwNUMKNOTS ++ [' ', '2'],
   kwDEGREE ++ [' ', '1'],
   kwTYPE ++ ' ' :: kwInterpolated,
   ['0','.','0'], ['1','.','0'],
   kwEND ++ ' ' :: kwNURBSPATCH,
   kwBEGIN ++ ' ' :: kwNURBSPATCH,
   kwID ++ [' ', '2'],
   kwNUMKNOTS ++ [' ', '2'],
   kwDEGREE ++ [' ', '1'],
   kwTYPE ++ ' ' :: kwInterpolated,
   ['0','.','0'], ['1','.','0'],
   kwEND ++ ' ' :: kwNURBSPATCH]

/-- C10: the remembered-dimension path is unreachable: reading the first
patch's `NURBS_DIMENSION` line already raises the keyword-argument
`TypeError`, so no dimension is ever recorded for a later patch to reuse. -/
theorem read_knotvectors_remembered_dimension_unreachable :
    read_knotvectors c10_section =
      Except.error (KErr.typeErrorKwarg extractorKw) := by
  decide

end Fourcipp
